import Mathlib

/-!
Verification development for the cli_discord_bot2 repository.

Strings are modelled as lists of Unicode scalar values (`List Char`),
matching Go's rune-level processing (`utf8.DecodeRune`, regexp character
classes operate on runes).  Each definition is a shallow embedding of the
corresponding Go function; the file states and proves the frozen claims
about them.
-/

set_option maxRecDepth 10000

namespace CliBot

abbrev Str := List Char

namespace Shellwords

/-- Characters matched by Go regexp `\s` (`[\t\n\f\r ]`). -/
def wSpace (c : Char) : Bool :=
  c == ' ' || c == '\t' || c == '\n' || c == '\r' || c == '\x0c'

/-- Characters matched by the bare-word alternative `[^\s\\'"]` of the
tokenizer regex in `shellwords.Split`. -/
def wordChar (c : Char) : Bool :=
  !wSpace c && !(c == '\\') && !(c == '\'') && !(c == '"')

/-- Scanner for the single-quote alternative `'([^']*)'`: content up to the
closing quote, plus the rest of the input; `none` when no closing quote. -/
def scanSq : Str → Option (Str × Str)
  | [] => none
  | c :: rest =>
    if c = '\'' then some ([], rest)
    else (scanSq rest).map (fun p => (c :: p.1, p.2))

/-- Scanner for the double-quote alternative `"((?:[^"\\]|\\.)*)"`.  Note Go's
`.` does not match a newline, so a backslash immediately followed by a newline
makes the alternative fail. -/
def scanDq : Str → Option (Str × Str)
  | [] => none
  | c :: rest =>
    if c = '"' then some ([], rest)
    else if c = '\\' then
      match rest with
      | [] => none
      | d :: rest2 =>
        if d = '\n' then none
        else (scanDq rest2).map (fun p => ('\\' :: d :: p.1, p.2))
    else (scanDq rest).map (fun p => (c :: p.1, p.2))

/-- Character class of the replacement regex `reDq`, i.e. the characters whose
backslash escape is removed inside double quotes: dollar, backquote, double
quote, backslash, newline. -/
def dqEscapable (c : Char) : Bool :=
  c == '$' || c == Char.ofNat 96 || c == '"' || c == '\\' || c == '\n'

/-- Replacement performed by `reDq.ReplaceAllString(dq, "$1")`. -/
def dqUnescape : Str → Str
  | [] => []
  | '\\' :: d :: rest =>
    if dqEscapable d then d :: dqUnescape rest else '\\' :: dqUnescape (d :: rest)
  | c :: rest => c :: dqUnescape rest

/-- One token-unit of the `Split` regex at a non-space position: the
alternatives word / single-quoted / double-quoted / backslash-escape, in the
regex's preference order; `none` corresponds to the garbage alternative
`(\S)`, i.e. the "unmatched quote" error. -/
def parseUnit : Str → Option (Str × Str)
  | [] => none
  | c :: rest =>
    if wordChar c then
      some (c :: rest.takeWhile wordChar, rest.dropWhile wordChar)
    else if c = '\'' then
      scanSq rest
    else if c = '"' then
      (scanDq rest).map (fun p => (dqUnescape p.1, p.2))
    else if c = '\\' then
      match rest with
      | [] => some (['\\'], [])
      | d :: rest2 => if d = '\n' then some (['\\'], d :: rest2) else some ([d], rest2)
    else none

theorem length_dropWhile_le (p : α → Bool) : ∀ (l : List α), (l.dropWhile p).length ≤ l.length := by
  intro l
  induction l with
  | nil => simp [List.dropWhile]
  | cons a l ih =>
    by_cases hp : p a
    · rw [List.dropWhile_cons_of_pos hp]
      simp
      omega
    · rw [List.dropWhile_cons_of_neg (by simpa using hp)]

theorem scanSq_length : ∀ (s t r : Str), scanSq s = some (t, r) → r.length < s.length := by
  intro s
  induction s with
  | nil => intro t r h; simp [scanSq] at h
  | cons c rest ih =>
    intro t r h
    simp only [scanSq] at h
    by_cases hc : c = '\''
    · simp [hc] at h
      simp [← h.2]
    · rw [if_neg hc] at h
      cases hscan : scanSq rest with
      | none => rw [hscan] at h; simp at h
      | some p =>
        rw [hscan] at h
        simp only [Option.map_some', Option.some.injEq] at h
        cases h
        have := ih p.1 p.2 (by rw [hscan])
        simp
        omega

theorem scanDq_length : ∀ (s t r : Str), scanDq s = some (t, r) → r.length < s.length
  | [], t, r => by intro h; simp [scanDq] at h
  | c :: rest, t, r => by
    intro h
    rw [scanDq.eq_def] at h
    simp only at h
    by_cases hq : c = '"'
    · simp [hq] at h
      simp [← h.2]
    · rw [if_neg hq] at h
      by_cases hb : c = '\\'
      · rw [if_pos hb] at h
        cases rest with
        | nil => simp at h
        | cons d rest2 =>
        simp only at h
        by_cases hd : d = '\n'
        · simp [hd] at h
        · rw [if_neg hd] at h
          cases hscan : scanDq rest2 with
          | none => rw [hscan] at h; simp at h
          | some p =>
            rw [hscan] at h
            simp only [Option.map_some', Option.some.injEq] at h
            cases h
            have := scanDq_length rest2 p.1 p.2 (by rw [hscan])
            simp
            omega
      · rw [if_neg hb] at h
        cases hscan : scanDq rest with
        | none => rw [hscan] at h; simp at h
        | some p =>
          rw [hscan] at h
          simp only [Option.map_some', Option.some.injEq] at h
          cases h
          have := scanDq_length rest p.1 p.2 (by rw [hscan])
          simp
          omega

theorem parseUnit_length : ∀ (s t r : Str), parseUnit s = some (t, r) → r.length < s.length := by
  intro s t r h
  match s with
  | [] => simp [parseUnit] at h
  | c :: rest =>
    rw [parseUnit.eq_def] at h
    simp only at h
    by_cases hw : wordChar c
    · simp only [hw, if_true] at h
      obtain ⟨h1, h2⟩ := Prod.mk.injEq .. ▸ (Option.some.injEq .. ▸ h)
      rw [← h2]
      have := length_dropWhile_le wordChar rest
      simp
      omega
    · simp only [hw, if_false, Bool.false_eq_true] at h
      by_cases hsq : c = '\''
      · rw [if_pos hsq] at h
        have := scanSq_length rest t r h
        simp
        omega
      · rw [if_neg hsq] at h
        by_cases hdq : c = '"'
        · rw [if_pos hdq] at h
          cases hscan : scanDq rest with
          | none => rw [hscan] at h; simp at h
          | some p =>
            rw [hscan] at h
            simp only [Option.map_some', Option.some.injEq] at h
            cases h
            have := scanDq_length rest p.1 p.2 (by rw [hscan])
            simp
            omega
        · rw [if_neg hdq] at h
          by_cases hbs : c = '\\'
          · rw [if_pos hbs] at h
            cases rest with
            | nil =>
              simp at h
              simp [← h.2]
            | cons d rest2 =>
              simp only at h
              by_cases hd : d = '\n'
              · simp [hd] at h
                simp [← h.2]
              · simp [hd] at h
                simp [← h.2]
                omega
          · simp [hbs] at h

/-- Core loop of `shellwords.Split`, mirroring the iteration over the regex
matches: skip whitespace, consume one unit, then the optional separator group
`(\s|$)?` decides whether the accumulated field is flushed. -/
def splitCore (s : Str) (field : Str) (acc : List Str) : Option (List Str) :=
  match s with
  | [] => some acc
  | c :: rest =>
    if wSpace c then
      splitCore rest field acc
    else
      match hu : parseUnit (c :: rest) with
      | none => none
      | some (token, rest2) =>
        match rest2 with
        | [] => some (acc ++ [field ++ token])
        | d :: rest3 =>
          if wSpace d then
            splitCore rest3 [] (acc ++ [field ++ token])
          else
            splitCore (d :: rest3) (field ++ token) acc
termination_by s.length
decreasing_by
  · simp
  · have := parseUnit_length _ _ _ hu
    simp at this ⊢
    omega
  · have := parseUnit_length _ _ _ hu
    simp at this ⊢
    omega

/-- Continuation of the split loop after one unit has produced `token`: the
separator group `(\s|$)?` flushes the field at end of input or before a
whitespace character, and otherwise the field keeps accumulating. -/
def afterUnit (token : Str) (field : Str) (acc : List Str) : Str → Option (List Str)
  | [] => some (acc ++ [field ++ token])
  | d :: rest3 =>
    if wSpace d then splitCore rest3 [] (acc ++ [field ++ token])
    else splitCore (d :: rest3) (field ++ token) acc

/-- Embedding of `shellwords.Split`; `none` is the "unmatched quote" error. -/
def SplitL (s : Str) : Option (List Str) := splitCore s [] []

theorem splitCore_nil (field : Str) (acc : List Str) : splitCore [] field acc = some acc := by
  rw [splitCore]

theorem splitCore_space (c : Char) (rest field : Str) (acc : List Str) (h : wSpace c = true) :
    splitCore (c :: rest) field acc = splitCore rest field acc := by
  rw [splitCore]
  rw [if_pos h]

theorem splitCore_unit (c : Char) (rest token rest2 : Str) (field : Str) (acc : List Str)
    (hsp : wSpace c = false) (hu : parseUnit (c :: rest) = some (token, rest2)) :
    splitCore (c :: rest) field acc = afterUnit token field acc rest2 := by
  rw [splitCore]
  rw [if_neg (by simp [hsp])]
  split
  · rename_i heq
    rw [hu] at heq
    cases heq
  · rename_i token' rest2' heq
    rw [hu] at heq
    cases heq
    cases rest2 with
    | nil => simp [afterUnit]
    | cons d rest3 => simp [afterUnit]

theorem splitCore_err (c : Char) (rest field : Str) (acc : List Str)
    (hsp : wSpace c = false) (hu : parseUnit (c :: rest) = none) :
    splitCore (c :: rest) field acc = none := by
  rw [splitCore]
  rw [if_neg (by simp [hsp])]
  split
  · rfl
  · rename_i token' rest2' heq
    rw [hu] at heq
    cases heq

theorem afterUnit_congr (t1 t2 f1 f2 : Str) (acc : List Str) (r : Str)
    (h : f1 ++ t1 = f2 ++ t2) : afterUnit t1 f1 acc r = afterUnit t2 f2 acc r := by
  cases r with
  | nil => simp [afterUnit, h]
  | cons d rest3 => simp [afterUnit, h]

theorem wordChar_not_space {c : Char} (h : wordChar c = true) : wSpace c = false := by
  simp only [wordChar, Bool.and_eq_true, Bool.not_eq_true'] at h
  exact h.1.1.1

theorem parseUnit_word (c : Char) (rest : Str) (hc : wordChar c = true) :
    parseUnit (c :: rest) = some (c :: rest.takeWhile wordChar, rest.dropWhile wordChar) := by
  rw [parseUnit.eq_def]
  simp [hc]

theorem parseUnit_sq_empty (T : Str) : parseUnit ('\'' :: '\'' :: T) = some ([], T) := by
  rw [parseUnit.eq_def]
  simp only
  rw [if_neg (by decide), if_pos trivial]
  rw [scanSq]
  rw [if_pos rfl]

theorem parseUnit_sq_nl (T : Str) : parseUnit ('\'' :: '\n' :: '\'' :: T) = some (['\n'], T) := by
  rw [parseUnit.eq_def]
  simp only
  rw [if_neg (by decide), if_pos trivial]
  rw [scanSq]
  rw [if_neg (by decide)]
  rw [scanSq]
  rw [if_pos rfl]
  rfl

theorem parseUnit_esc (c : Char) (T : Str) (h : c ≠ '\n') :
    parseUnit ('\\' :: c :: T) = some ([c], T) := by
  rw [parseUnit.eq_def]
  simp only
  rw [if_neg (by decide), if_neg (by decide), if_neg (by decide), if_pos trivial]
  rw [if_neg h]

/-- A word-character unit may be peeled off one character at a time: the greedy
run `[^\s\\'"]+` followed by the separator check behaves the same as consuming
one character into the field and continuing. -/
theorem splitCore_word_cons (c : Char) (s field : Str) (acc : List Str) (hc : wordChar c = true) :
    splitCore (c :: s) field acc = afterUnit [c] field acc s := by
  have hsp : wSpace c = false := wordChar_not_space hc
  cases s with
  | nil =>
    rw [splitCore_unit c [] [c] [] field acc hsp (by simpa using parseUnit_word c [] hc)]
  | cons d s' =>
    by_cases hw : wordChar d
    · have h1 : parseUnit (c :: d :: s') =
          some (c :: d :: s'.takeWhile wordChar, s'.dropWhile wordChar) := by
        rw [parseUnit_word c (d :: s') hc]
        rw [List.takeWhile_cons_of_pos hw, List.dropWhile_cons_of_pos hw]
      rw [splitCore_unit c (d :: s') _ _ field acc hsp h1]
      have h2 : afterUnit [c] field acc (d :: s') = splitCore (d :: s') (field ++ [c]) acc := by
        simp [afterUnit, wordChar_not_space hw]
      rw [h2]
      rw [splitCore_unit d s' _ _ (field ++ [c]) acc (wordChar_not_space hw)
        (parseUnit_word d s' hw)]
      exact afterUnit_congr _ _ _ _ acc _ (by simp)
    · have h1 : parseUnit (c :: d :: s') = some ([c], d :: s') := by
        rw [parseUnit_word c (d :: s') hc]
        rw [List.takeWhile_cons_of_neg (by simpa using hw),
          List.dropWhile_cons_of_neg (by simpa using hw)]
      rw [splitCore_unit c (d :: s') _ _ field acc hsp h1]

/-- Character class `[-A-Za-z0-9_.,:+/@\n]` of `shellwords.Escape`, i.e. the
characters left unescaped. -/
def escSafe (c : Char) : Bool :=
  c == '-' || (decide ('A' ≤ c) && decide (c ≤ 'Z')) || (decide ('a' ≤ c) && decide (c ≤ 'z')) ||
    (decide ('0' ≤ c) && decide (c ≤ '9')) ||
    c == '_' || c == '.' || c == ',' || c == ':' || c == '+' || c == '/' || c == '@' || c == '\n'

/-- Per-character effect of `shellwords.Escape` on a non-empty string: unsafe
characters get a backslash, and each newline is then wrapped as quote-newline-
quote by the final `strings.ReplaceAll`. -/
def escapeChar (c : Char) : Str :=
  if c = '\n' then ['\'', '\n', '\'']
  else if escSafe c then [c]
  else ['\\', c]

def escapeList : Str → Str
  | [] => []
  | c :: rest => escapeChar c ++ escapeList rest

/-- Embedding of `shellwords.Escape`. -/
def EscapeL (s : Str) : Str :=
  if s = [] then ['\'', '\''] else escapeList s

/-- Embedding of `shellwords.Join`: escaped tokens joined with single spaces. -/
def JoinL : List Str → Str
  | [] => []
  | [x] => EscapeL x
  | x :: y :: ys => EscapeL x ++ ' ' :: JoinL (y :: ys)

theorem wordChar_of_escSafe {c : Char} (h : escSafe c = true) (hn : c ≠ '\n') :
    wordChar c = true := by
  have key : ∀ x : Char, escSafe x = false → c ≠ x := by
    intro x hx hEq
    subst hEq
    rw [h] at hx
    cases hx
  have l0 : c ≠ ' ' := key _ (by decide)
  have l1 : c ≠ '\t' := key _ (by decide)
  have l2 : c ≠ '\r' := key _ (by decide)
  have l3 : c ≠ '\x0c' := key _ (by decide)
  have l4 : c ≠ '\\' := key _ (by decide)
  have l5 : c ≠ '\'' := key _ (by decide)
  have l6 : c ≠ '"' := key _ (by decide)
  simp [wordChar, wSpace, beq_iff_eq, l0, l1, l2, l3, l4, l5, l6, hn]

theorem escapeList_cons_head (c : Char) (cs : Str) :
    ∃ d ds, escapeList (c :: cs) = d :: ds ∧ wSpace d = false := by
  by_cases hc : c = '\n'
  · exact ⟨'\'', '\n' :: '\'' :: escapeList cs, by simp [escapeList, escapeChar, hc], by decide⟩
  · by_cases hs : escSafe c
    · exact ⟨c, escapeList cs, by simp [escapeList, escapeChar, hc, hs],
        wordChar_not_space (wordChar_of_escSafe hs hc)⟩
    · exact ⟨'\\', c :: escapeList cs, by simp [escapeList, escapeChar, hc, hs], by decide⟩

/-- Main lemma for the round-trip law: the escaped form of a non-empty token,
followed by nothing or by a space-separated continuation, is consumed by the
split loop as exactly that token. -/
theorem splitCore_escape_go : ∀ (x : Str), x ≠ [] → ∀ (suf field : Str) (acc : List Str),
    (suf = [] ∨ ∃ r, suf = ' ' :: r) →
    splitCore (escapeList x ++ suf) field acc = afterUnit x field acc suf := by
  intro x
  induction x with
  | nil => intro h; exact absurd rfl h
  | cons c x' ih =>
    intro _ suf field acc hsuf
    have hcont : ∀ tok : Str,
        afterUnit tok field acc (escapeList x' ++ suf) = afterUnit (tok ++ x') field acc suf := by
      intro tok
      cases x' with
      | nil => simp [escapeList]
      | cons c' cs =>
        obtain ⟨d, ds, hds, hdns⟩ := escapeList_cons_head c' cs
        rw [hds]
        rw [List.cons_append]
        have h1 : afterUnit tok field acc (d :: (ds ++ suf)) =
            splitCore (d :: (ds ++ suf)) (field ++ tok) acc := by
          simp [afterUnit, hdns]
        rw [h1]
        have h2 : d :: (ds ++ suf) = escapeList (c' :: cs) ++ suf := by
          rw [hds]
          rw [List.cons_append]
        rw [h2]
        rw [ih (by simp) suf (field ++ tok) acc hsuf]
        exact afterUnit_congr _ _ _ _ acc _ (by simp)
    by_cases hc : c = '\n'
    · subst hc
      have hstream : escapeList ('\n' :: x') ++ suf =
          '\'' :: '\n' :: '\'' :: (escapeList x' ++ suf) := by
        simp [escapeList, escapeChar]
      rw [hstream]
      rw [splitCore_unit _ _ _ _ field acc (by decide) (parseUnit_sq_nl _)]
      exact hcont ['\n']
    · by_cases hs : escSafe c
      · have hstream : escapeList (c :: x') ++ suf = c :: (escapeList x' ++ suf) := by
          simp [escapeList, escapeChar, hc, hs]
        rw [hstream]
        rw [splitCore_word_cons c _ field acc (wordChar_of_escSafe hs hc)]
        exact hcont [c]
      · have hstream : escapeList (c :: x') ++ suf = '\\' :: c :: (escapeList x' ++ suf) := by
          simp [escapeList, escapeChar, hc, hs]
        rw [hstream]
        rw [splitCore_unit _ _ _ _ field acc (by decide) (parseUnit_esc c _ hc)]
        exact hcont [c]

/-- Escaped form of an arbitrary token (possibly empty) is consumed by the
split loop as exactly that token. -/
theorem splitCore_Escape (x suf field : Str) (acc : List Str)
    (hsuf : suf = [] ∨ ∃ r, suf = ' ' :: r) :
    splitCore (EscapeL x ++ suf) field acc = afterUnit x field acc suf := by
  cases x with
  | nil =>
    have hstream : EscapeL [] ++ suf = '\'' :: '\'' :: suf := by simp [EscapeL]
    rw [hstream]
    rw [splitCore_unit _ _ _ _ field acc (by decide) (parseUnit_sq_empty _)]
  | cons c cs =>
    have hstream : EscapeL (c :: cs) = escapeList (c :: cs) := by simp [EscapeL]
    rw [hstream]
    exact splitCore_escape_go (c :: cs) (by simp) suf field acc hsuf

theorem splitCore_Join : ∀ (xs : List Str) (acc : List Str),
    splitCore (JoinL xs) [] acc = some (acc ++ xs) := by
  intro xs
  induction xs with
  | nil => intro acc; simp [JoinL, splitCore_nil]
  | cons x xs ih =>
    intro acc
    cases xs with
    | nil =>
      have h := splitCore_Escape x [] [] acc (Or.inl rfl)
      rw [List.append_nil] at h
      simpa [JoinL, afterUnit] using h
    | cons y ys =>
      rw [JoinL]
      rw [splitCore_Escape x (' ' :: JoinL (y :: ys)) [] acc (Or.inr ⟨_, rfl⟩)]
      have h2 : afterUnit x [] acc (' ' :: JoinL (y :: ys)) =
          splitCore (JoinL (y :: ys)) [] (acc ++ [x]) := by
        simp [afterUnit, wSpace]
      rw [h2, ih (acc ++ [x])]
      simp

/-- Mode of the specification-side quote scanner: outside quotes, inside a
single-quoted run, or inside a double-quoted run. -/
inductive QMode where
  | out
  | insq
  | indq

/-- Quote scanner following the specification's own wording (spec 4.1): bare
words with lone backslash escapes, single-quoted literals without escapes, and
double-quoted strings where a backslash escapes exactly dollar, backquote,
double quote, backslash, or newline and any other backslash is literal.
Returns `true` when the input ends inside an unclosed quote. -/
def quoteScan : QMode → Str → Bool
  | .out, [] => false
  | .out, '\\' :: rest =>
    match rest with
    | [] => false
    | _ :: rest2 => quoteScan .out rest2
  | .out, '\'' :: rest => quoteScan .insq rest
  | .out, '"' :: rest => quoteScan .indq rest
  | .out, _ :: rest => quoteScan .out rest
  | .insq, [] => true
  | .insq, '\'' :: rest => quoteScan .out rest
  | .insq, _ :: rest => quoteScan .insq rest
  | .indq, [] => true
  | .indq, '"' :: rest => quoteScan .out rest
  | .indq, '\\' :: rest =>
    match rest with
    | [] => true
    | d :: rest2 =>
      if dqEscapable d then quoteScan .indq rest2 else quoteScan .indq (d :: rest2)
  | .indq, _ :: rest => quoteScan .indq rest

/-- Modelled from the spec: the predicate "s contains an unmatched single or
double quote" of testable property 2, read against the token grammar the
specification itself gives in section 4.1. -/
def specUnmatchedQuote (s : Str) : Bool := quoteScan .out s

end Shellwords

/-- C5: for every finite list of strings, including empty strings and
whitespace-only strings, `shellwords.Split (shellwords.Join xs)` succeeds and
returns exactly `xs`. -/
theorem shellwords_split_join_roundtrip (xs : List Str) :
    Shellwords.SplitL (Shellwords.JoinL xs) = some xs := by
  have h := Shellwords.splitCore_Join xs []
  simpa [Shellwords.SplitL] using h

namespace Xiter

/-- Embedding of `xiter.ZipLongest`: pair elements positionally; a missing side
is `none` (Go: zero value with the OK flag false). -/
def zipLongest : List α → List β → List (Option α × Option β)
  | [], [] => []
  | a :: as, [] => (some a, none) :: zipLongest as []
  | [], b :: bs => (none, some b) :: zipLongest [] bs
  | a :: as, b :: bs => (some a, some b) :: zipLongest as bs

/-- Loop of `xiter.Dedupe` with the `seen` set accumulated so far. -/
def dedupeGo [DecidableEq α] (seen : List α) : List α → List α
  | [] => []
  | v :: rest => if v ∈ seen then dedupeGo seen rest else v :: dedupeGo (v :: seen) rest

/-- Embedding of `xiter.Dedupe`: keep only the first occurrence of each value. -/
def dedupe [DecidableEq α] (l : List α) : List α := dedupeGo [] l

theorem dedupeGo_sublist [DecidableEq α] : ∀ (l seen : List α), (dedupeGo seen l).Sublist l := by
  intro l
  induction l with
  | nil => intro seen; simp [dedupeGo]
  | cons v rest ih =>
    intro seen
    rw [dedupeGo]
    by_cases hv : v ∈ seen
    · rw [if_pos hv]
      exact (ih seen).cons v
    · rw [if_neg hv]
      exact (ih (v :: seen)).cons₂ v

theorem dedupeGo_mem [DecidableEq α] :
    ∀ (l seen : List α) (a : α), a ∈ dedupeGo seen l ↔ (a ∈ l ∧ a ∉ seen) := by
  intro l
  induction l with
  | nil => intro seen a; simp [dedupeGo]
  | cons v rest ih =>
    intro seen a
    rw [dedupeGo]
    by_cases hv : v ∈ seen
    · rw [if_pos hv]
      rw [ih seen a]
      constructor
      · exact fun ⟨h1, h2⟩ => ⟨List.mem_cons_of_mem v h1, h2⟩
      · rintro ⟨h1, h2⟩
        rcases List.mem_cons.1 h1 with h | h
        · subst h; exact absurd hv h2
        · exact ⟨h, h2⟩
    · rw [if_neg hv]
      simp only [List.mem_cons, ih rest]
      rw [ih (v :: seen) a]
      by_cases ha : a = v
      · subst ha; simp [hv]
      · simp [ha]

theorem dedupeGo_nodup [DecidableEq α] :
    ∀ (l seen : List α), (dedupeGo seen l).Nodup := by
  intro l
  induction l with
  | nil => intro seen; simp [dedupeGo]
  | cons v rest ih =>
    intro seen
    rw [dedupeGo]
    by_cases hv : v ∈ seen
    · rw [if_pos hv]; exact ih seen
    · rw [if_neg hv]
      refine List.nodup_cons.2 ⟨?_, ih (v :: seen)⟩
      intro hmem
      exact ((dedupeGo_mem rest (v :: seen) v).1 hmem).2 (List.mem_cons_self v seen)

theorem dedupe_sublist [DecidableEq α] (l : List α) : (dedupe l).Sublist l :=
  dedupeGo_sublist l []

theorem dedupe_nodup [DecidableEq α] (l : List α) : (dedupe l).Nodup :=
  dedupeGo_nodup l []

theorem dedupe_mem [DecidableEq α] (l : List α) (a : α) : a ∈ dedupe l ↔ a ∈ l := by
  rw [dedupe, dedupeGo_mem]
  simp

end Xiter

namespace Message

/-- Channel kinds distinguished by `ExecuteCmds` (other Discord channel types
collapse to `other`). -/
inductive ChanT where
  | guildText
  | guildPublicThread
  | guildPrivateThread
  | dm
  | other
  deriving DecidableEq

/-- Message kinds distinguished by `ShouldIgnore`. -/
inductive MsgT where
  | dflt
  | reply
  | other
  deriving DecidableEq

/-- Snapshot of the message fields that `ExecuteCmds` inspects.  `cmds` is the
result of `commandlinesFromMentions` and `input` the resolved
attachment-or-code-block payload. -/
structure MsgM where
  msgType : MsgT
  authorBot : Bool
  channelType : ChanT
  mentionsBot : Bool
  cmds : List Str
  input : Option Str

/-- Embedding of `message.ShouldIgnore`. -/
def ShouldIgnore (m : MsgM) : Bool :=
  match m.msgType with
  | .dflt => m.authorBot
  | .reply => m.authorBot
  | .other => true

/-- Characters of Go's `unicode.IsSpace` (the White_Space property), used by
`strings.TrimSpace`. -/
def goUnicodeSpace (c : Char) : Bool :=
  c == '\t' || c == '\n' || c == '\x0b' || c == '\x0c' || c == '\r' || c == ' ' ||
    c == '\x85' || c == '\xa0' || c == '\u1680' ||
    (decide ('\u2000' ≤ c) && decide (c ≤ '\u200a')) ||
    c == '\u2028' || c == '\u2029' || c == '\u202f' || c == '\u205f' || c == '\u3000'

/-- Embedding of `strings.TrimSpace`. -/
def trimSpace (s : Str) : Str :=
  ((s.dropWhile goUnicodeSpace).reverse.dropWhile goUnicodeSpace).reverse

/-- One planned command of a message: either the synthesized help result (empty
command with no input) or a target execution. -/
inductive CmdPlan where
  | help
  | run (cmd : Str) (withInput : Bool) (outputCmd : Bool)
  deriving DecidableEq

/-- Embedding of the command-planning part of `message.ExecuteCmds` (lines
40-102): ignore filter, channel gating, DM default command, dedupe, and the
choice between help and target execution per command. -/
def ExecuteCmdsPlan (m : MsgM) : List CmdPlan :=
  if ShouldIgnore m then []
  else
    let proceed : Bool :=
      match m.channelType with
      | .guildText => m.mentionsBot
      | .guildPublicThread => m.mentionsBot
      | .guildPrivateThread => m.mentionsBot
      | .dm => true
      | .other => false
    if !proceed then []
    else
      let defaultCmds : List Str := match m.channelType with | .dm => [[]] | _ => []
      let cmds := if m.cmds.isEmpty then defaultCmds else m.cmds
      let outputCmd := decide (1 < cmds.length)
      (Xiter.dedupe cmds).map fun cmd =>
        if m.input.isNone && (trimSpace cmd).isEmpty then CmdPlan.help
        else CmdPlan.run cmd m.input.isSome outputCmd

/-- Options fields consumed by the executor model, with the defaults of
`options.defaultOptions`. -/
structure OptionsM where
  envCommand : List Str
  targetCLI : Str
  targetArgsToUseStdin : List Str
  targetDefaultArgs : List Str
  numberOfLinesToEmbedOutput : Int
  numberOfLinesToEmbedUploadedOutput : Int

def defaultOptionsM : OptionsM where
  envCommand := [['/', 'u', 's', 'r', '/', 'b', 'i', 'n', '/', 'e', 'n', 'v'], ['-', 'i']]
  targetCLI := ['c', 'a', 't']
  targetArgsToUseStdin := []
  targetDefaultArgs := []
  numberOfLinesToEmbedOutput := 20
  numberOfLinesToEmbedUploadedOutput := 3

/-- Final argv assembled by `executeTarget` (lines 356-370): shellwords-split
the command line, fall back to `TargetDefaultArgs` when empty, append
`TargetArgsToUseStdin` when stdin is present, and prefix `EnvCommand`.
`none` is the command-line parse error. -/
def buildArgv (o : OptionsM) (commandline : Str) (hasInput : Bool) : Option (List Str) :=
  match Shellwords.SplitL commandline with
  | none => none
  | some args0 =>
    let args := if args0.isEmpty then o.targetDefaultArgs else args0
    some (o.envCommand ++ o.targetCLI :: (args ++ if hasInput then o.targetArgsToUseStdin else []))

/-- Result of a target execution: chat body and attached files (name, data). -/
structure ExecResultM where
  content : Str
  files : List (Str × Str)
  deriving DecidableEq

def backquote : Char := Char.ofNat 96

/-- Three backquotes, the code-block fence. -/
def fence : Str := [backquote, backquote, backquote]

def fenceNl : Str := fence ++ ['\n']

def noOutputStr : Str := ['n', 'o', ' ', 'o', 'u', 't', 'p', 'u', 't']

def withSep : Str := [' ', 'w', 'i', 't', 'h', ' ']

def stdoutName : Str := ['s', 't', 'd', 'o', 'u', 't']

def stderrName : Str := ['s', 't', 'd', 'e', 'r', 'r']

/-- Scan loop of `bytesToEmbedAndReader`.  `orig` is the whole output; the
loop walks the remaining scalars carrying the byte-position `i` (in scalar
units), the LF count `lineNumber`, the scalar count `runeCount`, and the
position `embedEnd` one past the `previewLines`-th LF.  The Boolean of the
result records whether a file reader was produced. -/
def b2eLoop (orig : Str) (maxLines maxRunes previewLines : Int) :
    Str → Nat → Nat → Nat → Nat → Str × Bool
  | [], _, _, _, _ => (orig, false)
  | c :: b, i, lineNumber, runeCount, embedEnd =>
    if c = '\n' then
      let ln := lineNumber + 1
      let ee := if (ln : Int) = previewLines then i + 1 else embedEnd
      if (ln : Int) > maxLines then (orig.take ee, true)
      else if ((runeCount : Int) + 1) = maxRunes then (orig.take (i + 1), true)
      else b2eLoop orig maxLines maxRunes previewLines b (i + 1) ln (runeCount + 1) ee
    else
      if ((runeCount : Int) + 1) = maxRunes then (orig.take (i + 1), true)
      else b2eLoop orig maxLines maxRunes previewLines b (i + 1) lineNumber (runeCount + 1) embedEnd

/-- Embedding of `bytesToEmbedAndReader`, at scalar granularity. -/
def bytesToEmbedAndReader (b : Str) (maxLines maxRunes previewLines : Int) : Str × Bool :=
  b2eLoop b maxLines maxRunes previewLines b 0 0 0 0

/-- Output-rendering loop of `executeTarget` (lines 431-446): one fenced block
per non-empty stream, with the per-stream rune budget computed from the 2000
cap minus everything already in the content. -/
def renderLoop (maxLines previewLines : Int) (failed : Bool) :
    List (Str × Str) → Nat → Str → List (Str × Str) → ExecResultM
  | [], _, content, files => ⟨content, files⟩
  | (name, data) :: rest, i, content, files =>
    let header := (if i = 0 && failed then name ++ [':'] else []) ++ fenceNl
    let footer := fence
    let limit : Int := 2000 - (content.length : Int) - header.length - footer.length
    let res := bytesToEmbedAndReader data maxLines limit previewLines
    renderLoop maxLines previewLines failed rest (i + 1) (content ++ header ++ res.1 ++ footer)
      (files ++ if res.2 then [(name ++ ['.', 'l', 'o', 'g'], data)] else [])

/-- Output sections of `executeTarget` (lines 414-447): empty streams are
dropped, both empty yields "no output", otherwise the render loop runs over
stdout then stderr. -/
def renderOutputs (content0 : Str) (failed : Bool) (stdout stderr : Str)
    (maxLines previewLines : Int) : ExecResultM :=
  let outputs : List (Str × Str) :=
    (if stdout.isEmpty then [] else [(stdoutName, stdout)]) ++
      (if stderr.isEmpty then [] else [(stderrName, stderr)])
  if outputs.isEmpty then ⟨content0 ++ noOutputStr, []⟩
  else renderLoop maxLines previewLines failed outputs 0 content0 []

/-- Embedding of `executeTarget`'s result assembly.  The child-process run
itself is abstracted by its observable data: `runErr` is the error string of a
failed or timed-out run (rendered as a content prefix), and `stdout`/`stderr`
are the captured streams.  Parse failure of the command line returns `none`
(the Go function returns an error and no `ExecutionResult`). -/
def executeTargetM (o : OptionsM) (commandline : Str) (hasInput : Bool)
    (outputCommandline : Bool) (runErr : Option Str) (stdout stderr : Str) :
    Option ExecResultM :=
  match Shellwords.SplitL commandline with
  | none => none
  | some args0 =>
    let args := if args0.isEmpty then o.targetDefaultArgs else args0
    let cli := o.targetCLI :: (args ++ if hasInput then o.targetArgsToUseStdin else [])
    let content0 : Str :=
      (if outputCommandline then backquote :: (Shellwords.JoinL cli ++ [backquote, '\n'])
        else []) ++
      (match runErr with | some e => e ++ withSep | none => [])
    some (renderOutputs content0 runErr.isSome stdout stderr
      o.numberOfLinesToEmbedOutput o.numberOfLinesToEmbedUploadedOutput)

end Message

namespace Client

/-- Observable remote reply operation performed by the reconciliation loop of
`processEventsForMessageID`. -/
inductive Action (R : Type) where
  | edit (replyId : Nat) (r : R)
  | create (r : R)
  | delete (replyId : Nat)
  deriving DecidableEq

def Action.isEdit : Action R → Bool
  | .edit _ _ => true
  | _ => false

def Action.isCreate : Action R → Bool
  | .create _ => true
  | _ => false

def Action.isDelete : Action R → Bool
  | .delete _ => true
  | _ => false

@[simp] theorem Action.isEdit_edit (replyId : Nat) (r : R) :
    (Action.edit replyId r).isEdit = true := rfl

@[simp] theorem Action.isEdit_create (r : R) : (Action.create r).isEdit = false := rfl

@[simp] theorem Action.isEdit_delete (replyId : Nat) :
    (Action.delete (R := R) replyId).isEdit = false := rfl

@[simp] theorem Action.isCreate_edit (replyId : Nat) (r : R) :
    (Action.edit replyId r).isCreate = false := rfl

@[simp] theorem Action.isCreate_create (r : R) : (Action.create r).isCreate = true := rfl

@[simp] theorem Action.isCreate_delete (replyId : Nat) :
    (Action.delete (R := R) replyId).isCreate = false := rfl

@[simp] theorem Action.isDelete_edit (replyId : Nat) (r : R) :
    (Action.edit replyId r).isDelete = false := rfl

@[simp] theorem Action.isDelete_create (r : R) : (Action.create r).isDelete = false := rfl

@[simp] theorem Action.isDelete_delete (replyId : Nat) :
    (Action.delete (R := R) replyId).isDelete = true := rfl

/-- One step of the reconciliation loop (lines 209-231): the three-way branch
on the `ZipLongest` flags.  A command result whose `Value` is nil (an errored
execution, modelled as the inner `none`) makes `UpdateMessage`/`SendReply`
no-ops. -/
def reconcileStep : Option (Option R) × Option Nat → List (Action R)
  | (some (some r), some replyId) => [.edit replyId r]
  | (some none, some _) => []
  | (some (some r), none) => [.create r]
  | (some none, none) => []
  | (none, some replyId) => [.delete replyId]
  | (none, none) => []

/-- Remote reply operations of one pass of the reconciliation loop followed by
the unconditional deletion of the `repliesToBeDeleted` set (lines 209-237),
on the happy path where every REST call succeeds. -/
def reconcileM (results : List (Option R)) (replies : List Nat) (toDelete : List Nat) :
    List (Action R) :=
  ((Xiter.zipLongest results replies).map reconcileStep).flatten ++ toDelete.map Action.delete

theorem zipLongest_nil_left (bs : List Nat) :
    ((Xiter.zipLongest ([] : List (Option R)) bs).map reconcileStep).flatten =
      bs.map Action.delete := by
  induction bs with
  | nil => simp [Xiter.zipLongest]
  | cons b bs ih => simp [Xiter.zipLongest, reconcileStep, ih]

theorem zipLongest_nil_right (as : List R) :
    ((Xiter.zipLongest (as.map some) ([] : List Nat)).map reconcileStep).flatten =
      as.map Action.create := by
  induction as with
  | nil => simp [Xiter.zipLongest]
  | cons a as ih => simp [Xiter.zipLongest, reconcileStep, ih]

theorem reconcile_pairs (as : List R) : ∀ (bs : List Nat),
    ((Xiter.zipLongest (as.map some) bs).map reconcileStep).flatten =
      List.zipWith (fun r replyId => Action.edit replyId r) as bs
        ++ (as.drop bs.length).map Action.create
        ++ (bs.drop as.length).map Action.delete := by
  induction as with
  | nil =>
    intro bs
    simp only [List.map_nil]
    rw [zipLongest_nil_left bs]
    simp
  | cons a as ih =>
    intro bs
    cases bs with
    | nil =>
      rw [zipLongest_nil_right (a :: as)]
      simp
    | cons b bs =>
      simp only [List.map_cons, Xiter.zipLongest, reconcileStep, List.flatten_cons, ih bs,
        List.zipWith_cons_cons, List.length_cons, List.drop_succ_cons]
      simp

theorem mem_zipWith_edit {R : Type} :
    ∀ (as : List R) (bs : List Nat) (a : Action R),
      a ∈ List.zipWith (fun r replyId => Action.edit replyId r) as bs →
        ∃ replyId r, a = Action.edit replyId r := by
  intro as
  induction as with
  | nil => intro bs a h; simp at h
  | cons x as ih =>
    intro bs a h
    cases bs with
    | nil => simp at h
    | cons b bs =>
      rw [List.zipWith_cons_cons] at h
      rcases List.mem_cons.1 h with h | h
      · exact ⟨b, x, h⟩
      · exact ih bs a h

theorem countP_zipWith_edit_pos {R : Type} (p : Action R → Bool) (as : List R) (bs : List Nat)
    (hp : ∀ replyId r, p (Action.edit replyId r) = true) :
    (List.zipWith (fun r replyId => Action.edit replyId r) as bs).countP p =
      min as.length bs.length := by
  rw [← List.length_zipWith (f := fun r replyId => Action.edit replyId r)]
  rw [List.countP_eq_length]
  intro a ha
  obtain ⟨replyId, r, rfl⟩ := mem_zipWith_edit as bs a ha
  exact hp replyId r

theorem countP_zipWith_edit_zero {R : Type} (p : Action R → Bool) (as : List R) (bs : List Nat)
    (hp : ∀ replyId r, p (Action.edit replyId r) = false) :
    (List.zipWith (fun r replyId => Action.edit replyId r) as bs).countP p = 0 := by
  rw [List.countP_eq_zero]
  intro a ha
  obtain ⟨replyId, r, rfl⟩ := mem_zipWith_edit as bs a ha
  simp [hp replyId r]

end Client

/-- C2: the reconciliation loop on `m` successful execution results and `n`
prior replies performs exactly `min m n` edits pairing the k-th result with
the k-th reply, then `max 0 (m - n)` creates, then `max 0 (n - m)` deletes, in
pairing-index order, and afterwards deletes every entry of the delete-set
unconditionally. -/
theorem reconciler_pairing {R : Type} (results : List R) (replies toDelete : List Nat) :
    Client.reconcileM (results.map some) replies toDelete =
      List.zipWith (fun r replyId => Client.Action.edit replyId r) results replies
        ++ (results.drop replies.length).map Client.Action.create
        ++ (replies.drop results.length).map Client.Action.delete
        ++ toDelete.map Client.Action.delete ∧
    (Client.reconcileM (results.map some) replies toDelete).countP Client.Action.isEdit =
      min results.length replies.length ∧
    (Client.reconcileM (results.map some) replies toDelete).countP Client.Action.isCreate =
      results.length - replies.length ∧
    (Client.reconcileM (results.map some) replies toDelete).countP Client.Action.isDelete =
      (replies.length - results.length) + toDelete.length := by
  have heq : Client.reconcileM (results.map some) replies toDelete =
      List.zipWith (fun r replyId => Client.Action.edit replyId r) results replies
        ++ (results.drop replies.length).map Client.Action.create
        ++ (replies.drop results.length).map Client.Action.delete
        ++ toDelete.map Client.Action.delete := by
    rw [Client.reconcileM, Client.reconcile_pairs results replies]
  refine ⟨heq, ?_, ?_, ?_⟩
  · rw [heq]
    simp only [List.countP_append, List.countP_map]
    rw [Client.countP_zipWith_edit_pos _ results replies (fun _ _ => rfl)]
    rw [List.countP_eq_zero.2 (fun a _ => by simp [Function.comp])]
    rw [List.countP_eq_zero.2 (fun a _ => by simp [Function.comp])]
    rw [List.countP_eq_zero.2 (fun a _ => by simp [Function.comp])]
    simp
  · rw [heq]
    simp only [List.countP_append, List.countP_map]
    rw [Client.countP_zipWith_edit_zero _ results replies (fun _ _ => rfl)]
    rw [List.countP_eq_length.2 (fun a _ => by simp [Function.comp])]
    rw [List.countP_eq_zero.2 (fun a _ => by simp [Function.comp])]
    rw [List.countP_eq_zero.2 (fun a _ => by simp [Function.comp])]
    simp
  · rw [heq]
    simp only [List.countP_append, List.countP_map]
    rw [Client.countP_zipWith_edit_zero _ results replies (fun _ _ => rfl)]
    rw [List.countP_eq_zero.2 (fun a _ => by simp [Function.comp])]
    rw [List.countP_eq_length.2 (fun a _ => by simp [Function.comp])]
    rw [List.countP_eq_length.2 (fun a _ => by simp [Function.comp])]
    simp [Nat.add_comm]

/-- C6: exhibit for the divergence between `shellwords.Split` and the claimed
"error iff unmatched quote" law.  The input is the four characters
double-quote, backslash, newline, double-quote: its quotes are matched (the
specification lists newline among the backslash-escapable characters inside
double quotes, as does the `reDq` replacement class in the code), yet `Split`
reports an unmatched-quote error because Go's `.` in the matcher regex does
not match a newline.  A plain double-quoted word splits fine. -/
theorem shellwords_backslash_newline_exhibit :
    Shellwords.SplitL ['"', '\\', '\n', '"'] = none ∧
    Shellwords.specUnmatchedQuote ['"', '\\', '\n', '"'] = false ∧
    Shellwords.SplitL ['"', 'a', '"'] = some [['a']] := by
  refine ⟨?_, by decide, ?_⟩
  · exact Shellwords.splitCore_err '"' ['\\', '\n', '"'] [] [] (by decide) (by decide)
  · show Shellwords.splitCore ['"', 'a', '"'] [] [] = some [['a']]
    rw [Shellwords.splitCore_unit '"' ['a', '"'] ['a'] [] [] [] (by decide) (by decide)]
    rfl

namespace Message

theorem b2eLoop_no_lf_exact (orig : Str) (ml pl : Int) :
    ∀ (b : Str) (i ln ee : Nat), b ≠ [] → (∀ c ∈ b, c ≠ '\n') →
      b2eLoop orig ml ((i : Int) + b.length) pl b i ln i ee =
        (orig.take (i + b.length), true) := by
  intro b
  induction b with
  | nil => intro i ln ee h _; exact absurd rfl h
  | cons c b' ih =>
    intro i ln ee _ hno
    rw [b2eLoop]
    rw [if_neg (hno c (List.mem_cons_self c b'))]
    cases b' with
    | nil =>
      rw [if_pos (by simp)]
      simp
    | cons d b'' =>
      rw [if_neg (by simp; omega)]
      have h2 : ((i : Int) + (c :: d :: b'').length) = (((i + 1 : Nat) : Int) + (d :: b'').length) := by
        simp
        omega
      rw [h2]
      rw [ih (i + 1) ln ee (by simp) (fun x hx => hno x (List.mem_cons_of_mem c hx))]
      have h3 : i + (c :: d :: b'').length = (i + 1) + (d :: b'').length := by
        simp
        omega
      rw [h3]

theorem b2eLoop_nonpos_budget (orig : Str) (ml mr pl : Int) (hmr : mr ≤ 0) :
    ∀ (b : Str) (i ln rc ee : Nat), (∀ c ∈ b, c ≠ '\n') →
      b2eLoop orig ml mr pl b i ln rc ee = (orig, false) := by
  intro b
  induction b with
  | nil => intro i ln rc ee _; rw [b2eLoop]
  | cons c b' ih =>
    intro i ln rc ee hno
    rw [b2eLoop]
    rw [if_neg (hno c (List.mem_cons_self c b'))]
    rw [if_neg (by push_cast; omega)]
    exact ih (i + 1) ln (rc + 1) ee fun x hx => hno x (List.mem_cons_of_mem c hx)

theorem b2e_no_lf_full (b : Str) (ml pl : Int) (hb : b ≠ []) (hno : ∀ c ∈ b, c ≠ '\n') :
    bytesToEmbedAndReader b ml (b.length : Int) pl = (b, true) := by
  have h := b2eLoop_no_lf_exact b ml pl b 0 0 0 hb hno
  simp only [Nat.cast_zero, zero_add, Nat.zero_add] at h
  rw [bytesToEmbedAndReader]
  rw [show ((b.length : Int)) = ((0 : Nat) : Int) + b.length by simp]
  rw [b2eLoop_no_lf_exact b ml pl b 0 0 0 hb hno]
  simp

theorem b2e_nonpos_budget (b : Str) (ml mr pl : Int) (hmr : mr ≤ 0)
    (hno : ∀ c ∈ b, c ≠ '\n') :
    bytesToEmbedAndReader b ml mr pl = (b, false) := by
  rw [bytesToEmbedAndReader]
  exact b2eLoop_nonpos_budget b ml mr pl hmr b 0 0 0 0 hno

end Message

/-- C4 exhibit: an execution whose stdout is 1993 non-newline scalars and
whose stderr is one scalar produces a Content of 2008 scalars, exceeding the
2000 cap: after the first stream consumes the whole budget, the second
stream's rune budget is negative and the `runeCount == maxRunes` check can
never fire, so the second stream is embedded unbounded. -/
theorem content_exceeds_limit_exhibit :
    ∃ r, Message.executeTargetM Message.defaultOptionsM [] true false none
        (List.replicate 1993 'a') ['x'] = some r ∧ r.content.length = 2008 ∧
        2000 < r.content.length := by
  have hA : ∀ c ∈ List.replicate 1993 'a', c ≠ '\n' := by
    intro c hc
    rw [List.eq_of_mem_replicate hc]
    decide
  have hb2e1 : Message.bytesToEmbedAndReader (List.replicate 1993 'a') 20 1993 3 =
      (List.replicate 1993 'a', true) := by
    have := Message.b2e_no_lf_full (List.replicate 1993 'a') 20 3 (by simp) hA
    simpa using this
  have hb2e2 : Message.bytesToEmbedAndReader ['x'] 20 (-7) 3 = (['x'], false) :=
    Message.b2e_nonpos_budget ['x'] 20 (-7) 3 (by omega) (by decide)
  refine ⟨Message.renderOutputs [] false (List.replicate 1993 'a') ['x'] 20 3, ?_, ?_⟩
  · rw [Message.executeTargetM]
    rw [show Shellwords.SplitL [] = some [] from Shellwords.splitCore_nil [] []]
    simp [Message.defaultOptionsM]
  · have houts : Message.renderOutputs [] false (List.replicate 1993 'a') ['x'] 20 3 =
        Message.renderLoop 20 3 false
          [(Message.stdoutName, List.replicate 1993 'a'), (Message.stderrName, ['x'])] 0 [] [] := by
      rw [Message.renderOutputs]
      simp
    have h1 : Message.renderLoop 20 3 false
        [(Message.stdoutName, List.replicate 1993 'a'), (Message.stderrName, ['x'])] 0 [] [] =
        Message.renderLoop 20 3 false [(Message.stderrName, ['x'])] 1
          (Message.fenceNl ++ List.replicate 1993 'a' ++ Message.fence)
          [(Message.stdoutName ++ ['.', 'l', 'o', 'g'], List.replicate 1993 'a')] := by
      rw [Message.renderLoop]
      norm_num [Message.fenceNl, Message.fence, Message.stdoutName, hb2e1]
    have h2 : Message.renderLoop 20 3 false [(Message.stderrName, ['x'])] 1
        (Message.fenceNl ++ List.replicate 1993 'a' ++ Message.fence)
        [(Message.stdoutName ++ ['.', 'l', 'o', 'g'], List.replicate 1993 'a')] =
        { content := Message.fenceNl ++ List.replicate 1993 'a' ++ Message.fence ++
            Message.fenceNl ++ ['x'] ++ Message.fence,
          files := [(Message.stdoutName ++ ['.', 'l', 'o', 'g'], List.replicate 1993 'a')] } := by
      conv_lhs => rw [Message.renderLoop]
      norm_num [Message.fenceNl, Message.fence, Message.stderrName, Message.stdoutName, hb2e2,
        List.append_assoc]
      rw [Message.renderLoop]
    have hlen : (Message.fenceNl ++ List.replicate 1993 'a' ++ Message.fence ++
        Message.fenceNl ++ ['x'] ++ Message.fence).length = 2008 := by
      simp only [Message.fenceNl, Message.fence]
      simp only [List.length_append, List.length_cons, List.length_nil, List.length_replicate]
    rw [houts, h1, h2]
    constructor
    · exact hlen
    · exact lt_of_lt_of_le (by norm_num) (le_of_eq hlen.symm)

namespace Message

end Message

/-- C7 counterexample: the command line consisting of one single quote fails
shellwords parsing, `executeTarget` returns an error and no ExecutionResult,
and the reconciliation loop given that errored result and no prior replies
performs no remote operation at all — no reply showing the error is created. -/
theorem parse_error_no_reply_counterexample :
    Message.executeTargetM Message.defaultOptionsM ['\''] false false none [] [] = none ∧
    Client.reconcileM (R := Message.ExecResultM) [none] [] [] = [] := by
  constructor
  · rw [Message.executeTargetM]
    rw [show Shellwords.SplitL ['\''] = none from
      Shellwords.splitCore_err '\'' [] [] [] (by decide) (by decide)]
  · simp [Client.reconcileM, Xiter.zipLongest, Client.reconcileStep]

/-- C7 (amended): when shellwords parsing of the command string fails, the
execution future resolves to an error carrying no ExecutionResult, and the
reconciler neither creates nor edits any reply for that slot — the parse
error is silently dropped and the command is not retried.  Replies beyond the
errored slot and the delete-set are still deleted. -/
theorem parse_error_silently_dropped (cmd : Str) (h : Shellwords.SplitL cmd = none)
    (o : Message.OptionsM) (hasInput outputCommandline : Bool) (runErr : Option Str)
    (so se : Str) (replies toDelete : List Nat) :
    Message.executeTargetM o cmd hasInput outputCommandline runErr so se = none ∧
    Client.reconcileM (R := Message.ExecResultM) [none] replies toDelete =
      (replies.drop 1).map Client.Action.delete ++ toDelete.map Client.Action.delete ∧
    ∀ a ∈ Client.reconcileM (R := Message.ExecResultM) [none] replies toDelete,
      a.isEdit = false ∧ a.isCreate = false := by
  have h2 : Client.reconcileM (R := Message.ExecResultM) [none] replies toDelete =
      (replies.drop 1).map Client.Action.delete ++ toDelete.map Client.Action.delete := by
    cases replies with
    | nil => simp [Client.reconcileM, Xiter.zipLongest, Client.reconcileStep]
    | cons b bs =>
      simp only [Client.reconcileM, Xiter.zipLongest, Client.reconcileStep, List.map_cons,
        List.flatten_cons, List.drop_succ_cons, List.drop_zero, List.nil_append]
      rw [Client.zipLongest_nil_left bs]
  refine ⟨?_, h2, ?_⟩
  · rw [Message.executeTargetM.eq_def, h]
  · intro a ha
    rw [h2] at ha
    rcases List.mem_append.1 ha with ha | ha <;>
      obtain ⟨replyId, _, rfl⟩ := List.mem_map.1 ha <;> exact ⟨rfl, rfl⟩

/-- Witness for the amended C7 at the concrete unmatched-quote command line
and concrete reply lists. -/
theorem parse_error_silently_dropped_witness :
    Message.executeTargetM Message.defaultOptionsM ['\''] false false none [] [] = none ∧
    Client.reconcileM (R := Message.ExecResultM) [none] [5, 6] [7] =
      ([5, 6].drop 1).map Client.Action.delete ++ [7].map Client.Action.delete ∧
    ∀ a ∈ Client.reconcileM (R := Message.ExecResultM) [none] [5, 6] [7],
      a.isEdit = false ∧ a.isCreate = false :=
  parse_error_silently_dropped ['\'']
    (Shellwords.splitCore_err '\'' [] [] [] (by decide) (by decide))
    Message.defaultOptionsM false false none [] [] [5, 6] [7]

/-- C8 counterexample: a non-bot guild message mentioning the bot whose
content carries two identical mention lines (`k = 2`) produces exactly one
execution plan, not two: `Dedupe` collapses duplicate command lines.  (The
echoed-command-line flag is still computed from the pre-dedupe count, so the
single plan carries `outputCmd = true`.) -/
theorem duplicate_commands_counterexample :
    Message.ExecuteCmdsPlan
        { msgType := .dflt, authorBot := false, channelType := .guildText,
          mentionsBot := true, cmds := [['-', 'n'], ['-', 'n']], input := none } =
      [Message.CmdPlan.run ['-', 'n'] false true] := by
  decide

/-- C8 (amended): for a non-bot guild message that mentions the bot, the bot
plans one execution per distinct command line, pairing each distinct command
with one reply slot: the plan list is a map over `dedupe cmds`, which is
duplicate-free, a sublist of the extracted command lines (so in
first-occurrence order), and contains exactly the distinct command lines. -/
theorem one_execution_per_distinct_command (cmds : List Str) (input : Option Str) :
    Message.ExecuteCmdsPlan
        { msgType := .dflt, authorBot := false, channelType := .guildText,
          mentionsBot := true, cmds := cmds, input := input } =
      (Xiter.dedupe cmds).map (fun cmd =>
        if input.isNone && (Message.trimSpace cmd).isEmpty then Message.CmdPlan.help
        else Message.CmdPlan.run cmd input.isSome (decide (1 < cmds.length))) ∧
    (Xiter.dedupe cmds).Nodup ∧
    (Xiter.dedupe cmds).Sublist cmds ∧
    (∀ c, c ∈ Xiter.dedupe cmds ↔ c ∈ cmds) := by
  refine ⟨?_, Xiter.dedupe_nodup cmds, Xiter.dedupe_sublist cmds, Xiter.dedupe_mem cmds⟩
  cases cmds with
  | nil => rfl
  | cons c cs => rfl

/-- C10: in a DM channel, a non-bot message that does not mention the bot and
contains no mention lines is still processed with a single empty default
command line: with no attachment or code-block input the single plan is the
synthesized help result, and with input it is one target execution of the
empty command line, whose argv is the env-command prefix, the target, the
default arguments, and the stdin arguments. -/
theorem dm_default_command (o : Message.OptionsM) :
    (∀ inp : Str, Message.ExecuteCmdsPlan
        { msgType := .dflt, authorBot := false, channelType := .dm,
          mentionsBot := false, cmds := [], input := some inp } =
      [Message.CmdPlan.run [] true false]) ∧
    Message.ExecuteCmdsPlan
        { msgType := .dflt, authorBot := false, channelType := .dm,
          mentionsBot := false, cmds := [], input := none } =
      [Message.CmdPlan.help] ∧
    Message.buildArgv o [] true =
      some (o.envCommand ++ o.targetCLI :: (o.targetDefaultArgs ++ o.targetArgsToUseStdin)) := by
  refine ⟨fun inp => rfl, rfl, ?_⟩
  rw [Message.buildArgv]
  rw [show Shellwords.SplitL [] = some [] from Shellwords.splitCore_nil [] []]
  simp

namespace Coalescer

/-- State of one buffered channel created by `storeLatestEventForMessageID`
(capacity 1, holding the event of the publish that created it): whether its
single buffered event has been received, and whether it has been closed by a
later swap.  A closed channel still delivers its buffered event; a receive
reports failure only on a closed AND drained channel. -/
structure Chan where
  taken : Bool
  closed : Bool

/-- Control state of one `processEventsForMessageID` goroutine: before the
`loadFromSyncMap` call, before the channel receive (holding the index of the
loaded channel), before the `CompareAndDelete` (holding the channel index and
the event received and processed), or returned. -/
inductive WSt (α : Type) : Type
  | atLoad : WSt α
  | atRecv (k : Nat) : WSt α
  | atCAS (k : Nat) (e : α) : WSt α
  | wdone : WSt α

/-- A goroutine that has not returned yet. -/
def WSt.isBusy {α : Type} : WSt α → Bool
  | .wdone => false
  | _ => true

/-- Global state of the coalescer for one fixed message id: `pubs` is the
sequence of events published for that id so far (gateway delivery order; the
channel created by publish number `k` is `chans[k]` and buffers event
`pubs[k]`), `slot` is the sync.Map entry (index of the current channel, or
`none`), `workers` are the goroutines spawned for the id, and `commits`
records `(e, n)` whenever the `CompareAndDelete` gate succeeds for a worker
holding event `e` while `n` events had been published: only then does the
effect loop (reply edits, creations, deletions) for `e` run, with its inputs
fully determined before the gate.  `failed` records whether some goroutine
took one of the pre-gate error returns (a non-cancellation failure of the
replies awaits), returning without performing the `CompareAndDelete`. -/
structure CoSt (α : Type) where
  pubs : List α
  chans : List Chan
  slot : Option Nat
  workers : List (WSt α)
  commits : List (α × Nat)
  failed : Bool

/-- No event published yet: empty map, no goroutines. -/
def CoInit (α : Type) : CoSt α := ⟨[], [], none, [], [], false⟩

/-- One interleaving step of publishers (`storeLatestEventForMessageID`,
linearized at the successful `LoadOrStore` respectively `CompareAndSwap` of
its retry loop) and workers (`processEventsForMessageID`).  `close(old)` is
folded into the swap and the goroutine spawn into the fresh store: the close
only affects the closed-receive path and context cancellation, and the
spawned goroutine has performed no action yet, so neither folding changes
the reachable gated effects.  `err_return` is the pre-gate error path: a
non-cancellation failure of `repliesFuture.Await` or
`repliesToBeDeletedFuture.Await` makes the goroutine return without
performing the `CompareAndDelete`, leaving the map entry in place. -/
inductive CoStep {α : Type} : CoSt α → CoSt α → Prop
  | publish_fresh (s : CoSt α) (e : α) : s.slot = none →
      CoStep s ⟨s.pubs ++ [e], s.chans ++ [⟨false, false⟩], some s.pubs.length,
        s.workers ++ [.atLoad], s.commits, s.failed⟩
  | publish_swap (s : CoSt α) (e : α) (k : Nat) (c : Chan) : s.slot = some k →
      s.chans[k]? = some c →
      CoStep s ⟨s.pubs ++ [e], s.chans.set k ⟨c.taken, true⟩ ++ [⟨false, false⟩],
        some s.pubs.length, s.workers, s.commits, s.failed⟩
  | load_some (s : CoSt α) (i k : Nat) : s.workers[i]? = some .atLoad →
      s.slot = some k →
      CoStep s { s with workers := s.workers.set i (.atRecv k) }
  | load_none (s : CoSt α) (i : Nat) : s.workers[i]? = some .atLoad →
      s.slot = none →
      CoStep s { s with workers := s.workers.set i .wdone }
  | recv_ok (s : CoSt α) (i k : Nat) (c : Chan) (e : α) :
      s.workers[i]? = some (.atRecv k) → s.chans[k]? = some c → c.taken = false →
      s.pubs[k]? = some e →
      CoStep s { s with
          chans := s.chans.set k ⟨true, c.closed⟩,
          workers := s.workers.set i (.atCAS k e) }
  | recv_closed (s : CoSt α) (i k : Nat) (c : Chan) :
      s.workers[i]? = some (.atRecv k) → s.chans[k]? = some c → c.taken = true →
      c.closed = true →
      CoStep s { s with workers := s.workers.set i .wdone }
  | cas_ok (s : CoSt α) (i k : Nat) (e : α) : s.workers[i]? = some (.atCAS k e) →
      s.slot = some k →
      CoStep s { s with
          slot := none,
          workers := s.workers.set i .wdone,
          commits := s.commits ++ [(e, s.pubs.length)] }
  | cas_fail (s : CoSt α) (i k : Nat) (e : α) : s.workers[i]? = some (.atCAS k e) →
      s.slot ≠ some k →
      CoStep s { s with workers := s.workers.set i .atLoad }
  | err_return (s : CoSt α) (i k : Nat) (e : α) : s.workers[i]? = some (.atCAS k e) →
      CoStep s { s with workers := s.workers.set i .wdone, failed := true }

/-- States reachable from the empty state by interleaved steps. -/
inductive Reach {α : Type} : CoSt α → Prop
  | init : Reach (CoInit α)
  | step {s t : CoSt α} : Reach s → CoStep s t → Reach t

/-- Inductive invariant: channel/publish correspondence, the slot always
holds the most recently created channel, an empty slot means every goroutine
has returned, at most one goroutine is active, an active receiver's channel
is undrained, a worker past its receive holds exactly the event its channel
buffered, while no error return happened a drained current channel has its
receiver still active before the gate and a non-empty slot has an active
goroutine, every committed event was the most recently published event at
its commit, and after an error return every goroutine has returned and the
stale map entry persists (no fresh goroutine is ever spawned again). -/
def CoInv {α : Type} (s : CoSt α) : Prop :=
  s.chans.length = s.pubs.length ∧
  (∀ k, s.slot = some k → k + 1 = s.pubs.length) ∧
  (s.slot = none → ∀ (i : Nat) (w : WSt α), s.workers[i]? = some w → w = WSt.wdone) ∧
  (∀ (i j : Nat) (wi wj : WSt α), s.workers[i]? = some wi → s.workers[j]? = some wj →
    wi.isBusy = true → wj.isBusy = true → i = j) ∧
  (∀ (i k : Nat), s.workers[i]? = some (WSt.atRecv k) →
    ∃ c, s.chans[k]? = some c ∧ c.taken = false) ∧
  (∀ (i k : Nat) (e : α), s.workers[i]? = some (WSt.atCAS k e) → s.pubs[k]? = some e) ∧
  (s.failed = false →
    ∀ (k : Nat) (c : Chan), s.slot = some k → s.chans[k]? = some c → c.taken = true →
      ∃ (i : Nat) (e : α), s.workers[i]? = some (WSt.atCAS k e)) ∧
  (s.failed = false → ∀ k, s.slot = some k →
    ∃ (i : Nat) (w : WSt α), s.workers[i]? = some w ∧ w.isBusy = true) ∧
  (∀ p ∈ s.commits, 0 < p.2 ∧ p.2 ≤ s.pubs.length ∧ s.pubs[p.2 - 1]? = some p.1) ∧
  (s.failed = true → ∀ (i : Nat) (w : WSt α), s.workers[i]? = some w → w = WSt.wdone) ∧
  (s.failed = true → s.slot ≠ none)

theorem lt_length_of_getElem? {β : Type} {l : List β} {i : Nat} {a : β}
    (h : l[i]? = some a) : i < l.length :=
  (List.getElem?_eq_some.mp h).1

theorem getElem?_append_single {β : Type} {l : List β} {a : β} {j : Nat} {w : β}
    (h : (l ++ [a])[j]? = some w) :
    (j < l.length ∧ l[j]? = some w) ∨ (j = l.length ∧ w = a) := by
  by_cases hj : j < l.length
  · exact Or.inl ⟨hj, by rwa [List.getElem?_append_left hj] at h⟩
  · have hlt := lt_length_of_getElem? h
    rw [List.length_append, List.length_singleton] at hlt
    have hje : j = l.length := by omega
    subst hje
    rw [List.getElem?_concat_length] at h
    exact Or.inr ⟨rfl, (Option.some_inj.mp h).symm⟩

theorem busy_set_preserved {α : Type} (ws : List (WSt α)) (i : Nat) (w : WSt α)
    (hw : ∃ wi, ws[i]? = some wi ∧ wi.isBusy = true) :
    ∀ (p : Nat) (wp : WSt α), (ws.set i w)[p]? = some wp → wp.isBusy = true →
      ∃ wq, ws[p]? = some wq ∧ wq.isBusy = true := by
  intro p wp hp hbusy
  by_cases hpi : i = p
  · subst hpi
    exact hw
  · rw [List.getElem?_set_ne hpi] at hp
    exact ⟨wp, hp, hbusy⟩

theorem CoInv_init {α : Type} : CoInv (CoInit α) := by
  refine ⟨rfl, ?_, ?_, ?_, ?_, ?_, ?_, ?_, ?_, ?_, ?_⟩ <;>
    simp [CoInit]

theorem not_busy_eq_wdone {α : Type} : ∀ w : WSt α, w.isBusy = false → w = WSt.wdone
  | .atLoad, h => by simp [WSt.isBusy] at h
  | .atRecv _, h => by simp [WSt.isBusy] at h
  | .atCAS _ _, h => by simp [WSt.isBusy] at h
  | .wdone, _ => rfl

theorem inv_publish_fresh {α : Type} (s : CoSt α) (e : α) (hs : s.slot = none)
    (hI : CoInv s) :
    CoInv ⟨s.pubs ++ [e], s.chans ++ [⟨false, false⟩], some s.pubs.length,
      s.workers ++ [.atLoad], s.commits, s.failed⟩ := by
  obtain ⟨h1, h2, h3, h4, h5, h6, h7, h8, h9, h10, h11⟩ := hI
  have hall : ∀ (i : Nat) (w : WSt α), s.workers[i]? = some w → w = WSt.wdone := h3 hs
  refine ⟨?_, ?_, ?_, ?_, ?_, ?_, ?_, ?_, ?_, ?_, ?_⟩
  · simp [h1]
  · intro k hk
    have hke : s.pubs.length = k := Option.some_inj.mp hk
    simp [← hke]
  · intro hnone
    exact absurd hnone (by simp)
  · intro i j wi wj hi hj bi bj
    rcases getElem?_append_single hi with ⟨hlt, hold⟩ | ⟨hie, hwe⟩
    · rw [hall i wi hold] at bi
      simp [WSt.isBusy] at bi
    · rcases getElem?_append_single hj with ⟨hlt2, hold2⟩ | ⟨hje, hwe2⟩
      · rw [hall j wj hold2] at bj
        simp [WSt.isBusy] at bj
      · omega
  · intro i k hi
    rcases getElem?_append_single hi with ⟨-, hold⟩ | ⟨-, hwe⟩
    · have := hall i _ hold
      simp at this
    · simp at hwe
  · intro i k e2 hi
    rcases getElem?_append_single hi with ⟨-, hold⟩ | ⟨-, hwe⟩
    · have := hall i _ hold
      simp at this
    · simp at hwe
  · intro hff k c hk hc htaken
    have hke : s.pubs.length = k := Option.some_inj.mp hk
    subst hke
    rw [← h1, List.getElem?_concat_length] at hc
    have hce : c = ⟨false, false⟩ := (Option.some_inj.mp hc).symm
    rw [hce] at htaken
    cases htaken
  · intro hff k hk
    exact ⟨s.workers.length, .atLoad, List.getElem?_concat_length _ _, rfl⟩
  · intro p hp
    obtain ⟨hp1, hp2, hp3⟩ := h9 p hp
    refine ⟨hp1, by simp; omega, ?_⟩
    rw [List.getElem?_append_left (by omega)]
    exact hp3
  · intro hfail
    exact absurd hs (h11 hfail)
  · intro hfail
    simp

theorem inv_publish_swap {α : Type} (s : CoSt α) (e : α) (k0 : Nat) (c : Chan)
    (hs : s.slot = some k0) (hc : s.chans[k0]? = some c) (hI : CoInv s) :
    CoInv ⟨s.pubs ++ [e], s.chans.set k0 ⟨c.taken, true⟩ ++ [⟨false, false⟩],
      some s.pubs.length, s.workers, s.commits, s.failed⟩ := by
  obtain ⟨h1, h2, h3, h4, h5, h6, h7, h8, h9, h10, h11⟩ := hI
  have hk0lt : k0 < s.chans.length := lt_length_of_getElem? hc
  refine ⟨?_, ?_, ?_, ?_, ?_, ?_, ?_, ?_, ?_, ?_, ?_⟩
  · simp [h1]
  · intro k hk
    have hke : s.pubs.length = k := Option.some_inj.mp hk
    simp [← hke]
  · intro hnone
    exact absurd hnone (by simp)
  · exact h4
  · intro i k hi
    obtain ⟨c2, hc2, ht2⟩ := h5 i k hi
    have hklt : k < s.chans.length := lt_length_of_getElem? hc2
    by_cases hkk : k0 = k
    · subst hkk
      have hce : c2 = c := Option.some_inj.mp (hc2.symm.trans hc)
      refine ⟨⟨c.taken, true⟩, ?_, ?_⟩
      · rw [List.getElem?_append_left (by simpa using hklt),
          List.getElem?_set_eq hk0lt]
      · rw [← hce]
        exact ht2
    · refine ⟨c2, ?_, ht2⟩
      rw [List.getElem?_append_left (by simpa using hklt),
        List.getElem?_set_ne hkk]
      exact hc2
  · intro i k e2 hi
    have := h6 i k e2 hi
    rw [List.getElem?_append_left (lt_length_of_getElem? this)]
    exact this
  · intro hff k c2 hk hc2 htaken
    have hke : s.pubs.length = k := Option.some_inj.mp hk
    subst hke
    rw [show s.pubs.length = (s.chans.set k0 ⟨c.taken, true⟩).length by simp [h1],
      List.getElem?_concat_length] at hc2
    have hce : c2 = ⟨false, false⟩ := (Option.some_inj.mp hc2).symm
    rw [hce] at htaken
    cases htaken
  · intro hff k hk
    exact h8 hff k0 hs
  · intro p hp
    obtain ⟨hp1, hp2, hp3⟩ := h9 p hp
    refine ⟨hp1, by simp; omega, ?_⟩
    rw [List.getElem?_append_left (by omega)]
    exact hp3
  · intro hfail
    exact h10 hfail
  · intro hfail
    simp

theorem inv_load_some {α : Type} (s : CoSt α) (i0 k0 : Nat)
    (hw : s.workers[i0]? = some .atLoad) (hs : s.slot = some k0) (hI : CoInv s) :
    CoInv { s with workers := s.workers.set i0 (.atRecv k0) } := by
  obtain ⟨h1, h2, h3, h4, h5, h6, h7, h8, h9, h10, h11⟩ := hI
  have hilt : i0 < s.workers.length := lt_length_of_getElem? hw
  have hff : s.failed = false := by
    cases hf : s.failed
    · rfl
    · have := h10 hf i0 _ hw
      simp at this
  refine ⟨h1, h2, ?_, ?_, ?_, ?_, ?_, ?_, h9, ?_, ?_⟩
  · intro hnone
    exact absurd (hs.symm.trans hnone) (by simp)
  · intro i j wi wj hi hj bi bj
    obtain ⟨wq, hq, bq⟩ := busy_set_preserved s.workers i0 _ ⟨_, hw, rfl⟩ i wi hi bi
    obtain ⟨wr, hr, br⟩ := busy_set_preserved s.workers i0 _ ⟨_, hw, rfl⟩ j wj hj bj
    exact h4 i j wq wr hq hr bq br
  · intro i k hi
    dsimp only at hi ⊢
    by_cases hii : i0 = i
    · subst hii
      rw [List.getElem?_set_eq hilt] at hi
      have hke := Option.some_inj.mp hi
      injection hke with hke2
      subst hke2
      have hk0lt : s.workers[i0]? = s.workers[i0]? := rfl
      have hklt : k0 < s.chans.length := by
        have := h2 k0 hs
        rw [h1]
        omega
      refine ⟨s.chans[k0], List.getElem?_eq_getElem hklt, ?_⟩
      cases hct : (s.chans[k0]).taken
      · rfl
      · obtain ⟨j, e2, hj⟩ := h7 hff k0 (s.chans[k0]) hs (List.getElem?_eq_getElem hklt) hct
        have hij : i0 ≠ j := by
          intro h
          subst h
          rw [hw] at hj
          simp at hj
        exact absurd (h4 i0 j _ _ hw hj rfl rfl) hij
    · rw [List.getElem?_set_ne hii] at hi
      exact h5 i k hi
  · intro i k e2 hi
    dsimp only at hi
    by_cases hii : i0 = i
    · subst hii
      rw [List.getElem?_set_eq hilt] at hi
      simp at hi
    · rw [List.getElem?_set_ne hii] at hi
      exact h6 i k e2 hi
  · intro hff2 k c hk hc htaken
    dsimp only at hk hc ⊢
    obtain ⟨j, e2, hj⟩ := h7 hff2 k c hk hc htaken
    have hij : i0 ≠ j := by
      intro h
      subst h
      rw [hw] at hj
      simp at hj
    refine ⟨j, e2, ?_⟩
    rw [List.getElem?_set_ne hij]
    exact hj
  · intro hff2 k hk
    exact ⟨i0, .atRecv k0, by dsimp only; rw [List.getElem?_set_eq hilt], rfl⟩
  · intro hfail
    rw [hff] at hfail
    simp at hfail
  · intro hfail
    rw [hff] at hfail
    simp at hfail

theorem inv_load_none {α : Type} (s : CoSt α) (i0 : Nat)
    (hw : s.workers[i0]? = some .atLoad) (hs : s.slot = none) (hI : CoInv s) :
    CoInv { s with workers := s.workers.set i0 .wdone } := by
  obtain ⟨h1, h2, h3, h4, h5, h6, h7, h8, h9, h10, h11⟩ := hI
  have := h3 hs i0 _ hw
  simp at this

theorem inv_recv_ok {α : Type} (s : CoSt α) (i0 k0 : Nat) (c : Chan) (e0 : α)
    (hw : s.workers[i0]? = some (.atRecv k0)) (hc : s.chans[k0]? = some c)
    (hct : c.taken = false) (hp : s.pubs[k0]? = some e0) (hI : CoInv s) :
    CoInv { s with
        chans := s.chans.set k0 ⟨true, c.closed⟩,
        workers := s.workers.set i0 (.atCAS k0 e0) } := by
  obtain ⟨h1, h2, h3, h4, h5, h6, h7, h8, h9, h10, h11⟩ := hI
  have hilt : i0 < s.workers.length := lt_length_of_getElem? hw
  have hk0lt : k0 < s.chans.length := lt_length_of_getElem? hc
  have hff : s.failed = false := by
    cases hf : s.failed
    · rfl
    · have := h10 hf i0 _ hw
      simp at this
  refine ⟨?_, h2, ?_, ?_, ?_, ?_, ?_, ?_, h9, ?_, ?_⟩
  · dsimp only
    rw [List.length_set]
    exact h1
  · intro hnone
    have := h3 hnone i0 _ hw
    simp at this
  · intro i j wi wj hi hj bi bj
    obtain ⟨wq, hq, bq⟩ := busy_set_preserved s.workers i0 _ ⟨_, hw, rfl⟩ i wi hi bi
    obtain ⟨wr, hr, br⟩ := busy_set_preserved s.workers i0 _ ⟨_, hw, rfl⟩ j wj hj bj
    exact h4 i j wq wr hq hr bq br
  · intro i k hi
    dsimp only at hi ⊢
    by_cases hii : i0 = i
    · subst hii
      rw [List.getElem?_set_eq hilt] at hi
      simp at hi
    · rw [List.getElem?_set_ne hii] at hi
      obtain ⟨c2, hc2, ht2⟩ := h5 i k hi
      by_cases hkk : k0 = k
      · subst hkk
        exact absurd (h4 i0 i _ _ hw hi rfl rfl) hii
      · refine ⟨c2, ?_, ht2⟩
        rw [List.getElem?_set_ne hkk]
        exact hc2
  · intro i k e2 hi
    dsimp only at hi ⊢
    by_cases hii : i0 = i
    · subst hii
      rw [List.getElem?_set_eq hilt] at hi
      have hke := Option.some_inj.mp hi
      injection hke with hke1 hke2
      subst hke1
      subst hke2
      exact hp
    · rw [List.getElem?_set_ne hii] at hi
      exact h6 i k e2 hi
  · intro hff2 k c2 hk hc2 htaken
    dsimp only at hk hc2 ⊢
    by_cases hkk : k0 = k
    · subst hkk
      exact ⟨i0, e0, by rw [List.getElem?_set_eq hilt]⟩
    · rw [List.getElem?_set_ne hkk] at hc2
      obtain ⟨j, e2, hj⟩ := h7 hff2 k c2 hk hc2 htaken
      have hij : i0 ≠ j := by
        intro h
        subst h
        rw [hw] at hj
        simp at hj
      exact ⟨j, e2, by rw [List.getElem?_set_ne hij]; exact hj⟩
  · intro hff2 k hk
    exact ⟨i0, .atCAS k0 e0, by dsimp only; rw [List.getElem?_set_eq hilt], rfl⟩
  · intro hfail
    rw [hff] at hfail
    simp at hfail
  · intro hfail
    rw [hff] at hfail
    simp at hfail

theorem inv_recv_closed {α : Type} (s : CoSt α) (i0 k0 : Nat) (c : Chan)
    (hw : s.workers[i0]? = some (.atRecv k0)) (hc : s.chans[k0]? = some c)
    (htaken : c.taken = true) (hI : CoInv s) :
    CoInv { s with workers := s.workers.set i0 .wdone } := by
  obtain ⟨h1, h2, h3, h4, h5, h6, h7, h8, h9, h10, h11⟩ := hI
  obtain ⟨c2, hc2, ht2⟩ := h5 i0 k0 hw
  have hce : c2 = c := Option.some_inj.mp (hc2.symm.trans hc)
  rw [hce, htaken] at ht2
  simp at ht2

theorem inv_cas_ok {α : Type} (s : CoSt α) (i0 k0 : Nat) (e0 : α)
    (hw : s.workers[i0]? = some (.atCAS k0 e0)) (hs : s.slot = some k0) (hI : CoInv s) :
    CoInv { s with
        slot := none,
        workers := s.workers.set i0 .wdone,
        commits := s.commits ++ [(e0, s.pubs.length)] } := by
  obtain ⟨h1, h2, h3, h4, h5, h6, h7, h8, h9, h10, h11⟩ := hI
  have hilt : i0 < s.workers.length := lt_length_of_getElem? hw
  have hff : s.failed = false := by
    cases hf : s.failed
    · rfl
    · have := h10 hf i0 _ hw
      simp at this
  refine ⟨h1, ?_, ?_, ?_, ?_, ?_, ?_, ?_, ?_, ?_, ?_⟩
  · intro k hk
    dsimp only at hk
    exact Option.noConfusion hk
  · intro hnone i w hi
    dsimp only at hi
    by_cases hii : i0 = i
    · subst hii
      rw [List.getElem?_set_eq hilt] at hi
      exact (Option.some_inj.mp hi).symm
    · rw [List.getElem?_set_ne hii] at hi
      cases hbusy : w.isBusy
      · exact not_busy_eq_wdone w hbusy
      · exact absurd (h4 i i0 w _ hi hw hbusy rfl).symm hii
  · intro i j wi wj hi hj bi bj
    dsimp only at hi hj
    have hni : i0 ≠ i := by
      intro h
      subst h
      rw [List.getElem?_set_eq hilt] at hi
      rw [← Option.some_inj.mp hi] at bi
      simp [WSt.isBusy] at bi
    have hnj : i0 ≠ j := by
      intro h
      subst h
      rw [List.getElem?_set_eq hilt] at hj
      rw [← Option.some_inj.mp hj] at bj
      simp [WSt.isBusy] at bj
    rw [List.getElem?_set_ne hni] at hi
    rw [List.getElem?_set_ne hnj] at hj
    exact h4 i j wi wj hi hj bi bj
  · intro i k hi
    dsimp only at hi ⊢
    by_cases hii : i0 = i
    · subst hii
      rw [List.getElem?_set_eq hilt] at hi
      simp at hi
    · rw [List.getElem?_set_ne hii] at hi
      exact h5 i k hi
  · intro i k e2 hi
    dsimp only at hi ⊢
    by_cases hii : i0 = i
    · subst hii
      rw [List.getElem?_set_eq hilt] at hi
      simp at hi
    · rw [List.getElem?_set_ne hii] at hi
      exact h6 i k e2 hi
  · intro hff2 k c2 hk
    dsimp only at hk
    exact absurd hk (by simp)
  · intro hff2 k hk
    dsimp only at hk
    exact absurd hk (by simp)
  · intro p hp
    dsimp only at hp ⊢
    rcases List.mem_append.mp hp with hold | hnew
    · exact h9 p hold
    · have hpe : p = (e0, s.pubs.length) := List.mem_singleton.mp hnew
      subst hpe
      have hk1 : k0 + 1 = s.pubs.length := h2 k0 hs
      dsimp only
      refine ⟨by omega, le_refl _, ?_⟩
      rw [show s.pubs.length - 1 = k0 by omega]
      exact h6 i0 k0 e0 hw
  · intro hfail
    rw [hff] at hfail
    simp at hfail
  · intro hfail
    rw [hff] at hfail
    simp at hfail

theorem inv_cas_fail {α : Type} (s : CoSt α) (i0 k0 : Nat) (e0 : α)
    (hw : s.workers[i0]? = some (.atCAS k0 e0)) (hs : s.slot ≠ some k0) (hI : CoInv s) :
    CoInv { s with workers := s.workers.set i0 .atLoad } := by
  obtain ⟨h1, h2, h3, h4, h5, h6, h7, h8, h9, h10, h11⟩ := hI
  have hilt : i0 < s.workers.length := lt_length_of_getElem? hw
  have hff : s.failed = false := by
    cases hf : s.failed
    · rfl
    · have := h10 hf i0 _ hw
      simp at this
  refine ⟨h1, h2, ?_, ?_, ?_, ?_, ?_, ?_, h9, ?_, ?_⟩
  · intro hnone
    have := h3 hnone i0 _ hw
    simp at this
  · intro i j wi wj hi hj bi bj
    obtain ⟨wq, hq, bq⟩ := busy_set_preserved s.workers i0 _ ⟨_, hw, rfl⟩ i wi hi bi
    obtain ⟨wr, hr, br⟩ := busy_set_preserved s.workers i0 _ ⟨_, hw, rfl⟩ j wj hj bj
    exact h4 i j wq wr hq hr bq br
  · intro i k hi
    dsimp only at hi ⊢
    by_cases hii : i0 = i
    · subst hii
      rw [List.getElem?_set_eq hilt] at hi
      simp at hi
    · rw [List.getElem?_set_ne hii] at hi
      exact h5 i k hi
  · intro i k e2 hi
    dsimp only at hi
    by_cases hii : i0 = i
    · subst hii
      rw [List.getElem?_set_eq hilt] at hi
      simp at hi
    · rw [List.getElem?_set_ne hii] at hi
      exact h6 i k e2 hi
  · intro hff2 k c2 hk hc2 htaken
    dsimp only at hk hc2 ⊢
    obtain ⟨j, e2, hj⟩ := h7 hff2 k c2 hk hc2 htaken
    have hij : i0 ≠ j := by
      intro h
      subst h
      rw [hw] at hj
      have hke := Option.some_inj.mp hj
      injection hke with hke1 hke2
      subst hke1
      exact hs hk
    exact ⟨j, e2, by rw [List.getElem?_set_ne hij]; exact hj⟩
  · intro hff2 k hk
    exact ⟨i0, .atLoad, by dsimp only; rw [List.getElem?_set_eq hilt], rfl⟩
  · intro hfail
    rw [hff] at hfail
    simp at hfail
  · intro hfail
    rw [hff] at hfail
    simp at hfail

theorem inv_err_return {α : Type} (s : CoSt α) (i0 k0 : Nat) (e0 : α)
    (hw : s.workers[i0]? = some (.atCAS k0 e0)) (hI : CoInv s) :
    CoInv { s with workers := s.workers.set i0 .wdone, failed := true } := by
  obtain ⟨h1, h2, h3, h4, h5, h6, h7, h8, h9, h10, h11⟩ := hI
  have hilt : i0 < s.workers.length := lt_length_of_getElem? hw
  have hslot : s.slot ≠ none := by
    intro hn
    have := h3 hn i0 _ hw
    simp at this
  have hdone : ∀ (i : Nat) (w : WSt α), (s.workers.set i0 WSt.wdone)[i]? = some w →
      w = WSt.wdone := by
    intro i w hi
    by_cases hii : i0 = i
    · subst hii
      rw [List.getElem?_set_eq hilt] at hi
      exact (Option.some_inj.mp hi).symm
    · rw [List.getElem?_set_ne hii] at hi
      cases hbusy : w.isBusy
      · exact not_busy_eq_wdone w hbusy
      · exact absurd (h4 i i0 w _ hi hw hbusy rfl).symm hii
  refine ⟨h1, h2, ?_, ?_, ?_, ?_, ?_, ?_, h9, ?_, ?_⟩
  · intro hnone
    exact absurd hnone hslot
  · intro i j wi wj hi hj bi bj
    dsimp only at hi hj
    rw [hdone i wi hi] at bi
    simp [WSt.isBusy] at bi
  · intro i k hi
    dsimp only at hi ⊢
    have := hdone i _ hi
    simp at this
  · intro i k e2 hi
    dsimp only at hi
    have := hdone i _ hi
    simp at this
  · intro hff
    cases hff
  · intro hff
    cases hff
  · intro hfail
    exact hdone
  · intro hfail
    exact hslot

theorem CoInv_step {α : Type} {s t : CoSt α} (hI : CoInv s) (hst : CoStep s t) :
    CoInv t := by
  cases hst with
  | publish_fresh e hs => exact inv_publish_fresh s e hs hI
  | publish_swap e k c hs hc => exact inv_publish_swap s e k c hs hc hI
  | load_some i k hw hs => exact inv_load_some s i k hw hs hI
  | load_none i hw hs => exact inv_load_none s i hw hs hI
  | recv_ok i k c e hw hc hct hp => exact inv_recv_ok s i k c e hw hc hct hp hI
  | recv_closed i k c hw hc hct hcl => exact inv_recv_closed s i k c hw hc hct hI
  | cas_ok i k e hw hs => exact inv_cas_ok s i k e hw hs hI
  | cas_fail i k e hw hs => exact inv_cas_fail s i k e hw hs hI
  | err_return i k e hw => exact inv_err_return s i k e hw hI

theorem CoInv_reach {α : Type} (s : CoSt α) (h : Reach s) : CoInv s := by
  induction h with
  | init => exact CoInv_init
  | step hr hst ih => exact CoInv_step ih hst

end Coalescer

namespace Await

/-- Error recorded by `Result.receive` when the context is done and no result
is available: `ctx.Err()` for a cancelled context. -/
def ctxErr : Str := "context canceled".toList

/-- One submitted task body, as the collector can observe it: the task
returns a value and/or error (`completes`, with the value as an `Option` to
cover Go zero values), or the task panics (`panics`). -/
inductive Body (α : Type) : Type
  | completes (v : Option α) (e : Option Str) : Body α
  | panics (p : Str) : Body α

/-- The result the runner delivers for a body, mirroring
`makeRunnerAndReceiver`: a normal return is passed through, a panic is
recovered and stored as the future's error with the value left at its zero
value. -/
structure AwRes (α : Type) where
  value : Option α
  err : Option Str

def runBody {α : Type} : Body α → AwRes α
  | .completes v e => ⟨v, e⟩
  | .panics p => ⟨none, some p⟩

/-- State of `future.Await(ctx, futures)` for a fixed input sequence
`bodies`: `fed` counts the receivers the feeder goroutine has pushed into
`receiverCh` (strictly in input order; the FIFO capacity only limits which
interleavings occur, so it is dropped for this safety analysis),
`completed[i]` records whether runner `i` has delivered its result,
`collected` is the sequence of results the collector loop has taken so far
(popping receivers in FIFO = input order), and `cancelled` records whether
`ctx` is done. -/
structure AwSt (α : Type) where
  bodies : List (Body α)
  fed : Nat
  completed : List Bool
  collected : List (AwRes α)
  cancelled : Bool

def AwInit {α : Type} (bodies : List (Body α)) : AwSt α :=
  ⟨bodies, 0, [], [], false⟩

/-- Interleaving steps: the feeder enqueues the next receiver; a runner
finishes its body (in any order); the context is cancelled; the collector
pops the next receiver and calls it — blocking until the result is available
(`collect_done`, also taken when cancelled but the result is already there,
matching the inner `select` preference), or returning `ctx.Err()` when
cancelled with no result available (`collect_cancelled`) — so a cancelled
future yields an error in its slot rather than being skipped. -/
inductive AwStep {α : Type} : AwSt α → AwSt α → Prop
  | feed (s : AwSt α) : s.fed < s.bodies.length →
      AwStep s { s with fed := s.fed + 1, completed := s.completed ++ [false] }
  | finish (s : AwSt α) (i : Nat) : s.completed[i]? = some false →
      AwStep s { s with completed := s.completed.set i true }
  | cancel (s : AwSt α) : AwStep s { s with cancelled := true }
  | collect_done (s : AwSt α) (b : Body α) : s.collected.length < s.fed →
      s.completed[s.collected.length]? = some true →
      s.bodies[s.collected.length]? = some b →
      AwStep s { s with collected := s.collected ++ [runBody b] }
  | collect_cancelled (s : AwSt α) : s.collected.length < s.fed →
      s.completed[s.collected.length]? = some false → s.cancelled = true →
      AwStep s { s with collected := s.collected ++ [AwRes.mk none (some ctxErr)] }

inductive AwReach {α : Type} : AwSt α → Prop
  | init (bodies : List (Body α)) : AwReach (AwInit bodies)
  | step {s t : AwSt α} : AwReach s → AwStep s t → AwReach t

/-- Inductive invariant: the feeder stays within the input, `completed`
tracks exactly the fed prefix, the collector never takes more than was fed,
and every collected slot `i` holds either the result of body `i` or the
cancellation error (only when the context was cancelled). -/
def AwInv {α : Type} (s : AwSt α) : Prop :=
  s.fed ≤ s.bodies.length ∧
  s.completed.length = s.fed ∧
  s.collected.length ≤ s.fed ∧
  ∀ (i : Nat) (r : AwRes α), s.collected[i]? = some r →
    ∃ b, s.bodies[i]? = some b ∧
      (r = runBody b ∨ (s.cancelled = true ∧ r = AwRes.mk none (some ctxErr)))

theorem AwInv_init {α : Type} (bodies : List (Body α)) : AwInv (AwInit bodies) := by
  refine ⟨?_, ?_, ?_, ?_⟩ <;> simp [AwInit]

theorem AwInv_step {α : Type} {s t : AwSt α} (hI : AwInv s) (hst : AwStep s t) :
    AwInv t := by
  obtain ⟨h1, h2, h3, h4⟩ := hI
  cases hst with
  | feed hf =>
    refine ⟨by dsimp only; omega, by dsimp only; simp [h2], by dsimp only; omega, ?_⟩
    intro i r hi
    obtain ⟨b, hb, hr⟩ := h4 i r hi
    exact ⟨b, hb, hr⟩
  | finish i hc =>
    refine ⟨h1, by simp [h2], h3, h4⟩
  | cancel =>
    refine ⟨h1, h2, h3, ?_⟩
    intro i r hi
    obtain ⟨b, hb, hr⟩ := h4 i r hi
    rcases hr with hr | ⟨-, hr⟩
    · exact ⟨b, hb, Or.inl hr⟩
    · exact ⟨b, hb, Or.inr ⟨rfl, hr⟩⟩
  | collect_done b hlt hc hb =>
    refine ⟨h1, h2, by simp; omega, ?_⟩
    intro i r hi
    dsimp only at hi
    rcases Coalescer.getElem?_append_single hi with ⟨-, hold⟩ | ⟨hie, hre⟩
    · exact h4 i r hold
    · subst hie
      exact ⟨b, hb, Or.inl hre⟩
  | collect_cancelled hlt hc hcl =>
    refine ⟨h1, h2, by simp; omega, ?_⟩
    intro i r hi
    dsimp only at hi
    rcases Coalescer.getElem?_append_single hi with ⟨-, hold⟩ | ⟨hie, hre⟩
    · exact h4 i r hold
    · subst hie
      have hib : s.collected.length < s.bodies.length := by omega
      exact ⟨s.bodies[s.collected.length],
        List.getElem?_eq_getElem hib, Or.inr ⟨hcl, hre⟩⟩

theorem AwInv_reach {α : Type} (s : AwSt α) (h : AwReach s) : AwInv s := by
  induction h with
  | init bodies => exact AwInv_init bodies
  | step hr hst ih => exact AwInv_step ih hst

end Await

/-- C3: over the transition system of `future.Await` (feeder pushing one
receiver per input future into the FIFO in input order, runners finishing in
arbitrary order, the collector popping receivers in FIFO order and blocking
on each until its result is available or the context is done), in every
reachable state the `i`-th collected result belongs to the `i`-th input
future — its own value/error, with a panic captured as that future's error
by `runBody`, or the context error when cancelled before that future
finished — never to another future and never skipped; and when the feeder
has fed all `n` futures and the collector has drained them, exactly `n`
results were yielded, equal to the input-order result sequence whenever the
context was never cancelled, regardless of completion order. -/
theorem await_results_in_input_order {α : Type} (s : Await.AwSt α)
    (h : Await.AwReach s) :
    s.collected.length ≤ s.bodies.length ∧
    (∀ (i : Nat) (r : Await.AwRes α), s.collected[i]? = some r →
      ∃ b, s.bodies[i]? = some b ∧
        (r = Await.runBody b ∨
          (s.cancelled = true ∧ r = Await.AwRes.mk none (some Await.ctxErr)))) ∧
    (s.fed = s.bodies.length → s.collected.length = s.fed →
      s.collected.length = s.bodies.length ∧
      (s.cancelled = false → s.collected = s.bodies.map Await.runBody)) := by
  obtain ⟨h1, h2, h3, h4⟩ := Await.AwInv_reach s h
  refine ⟨by omega, h4, ?_⟩
  intro hfed hcol
  refine ⟨by omega, ?_⟩
  intro hnc
  apply List.ext_getElem?
  intro i
  by_cases hi : i < s.collected.length
  · obtain ⟨r, hr⟩ : ∃ r, s.collected[i]? = some r := ⟨_, List.getElem?_eq_getElem hi⟩
    obtain ⟨b, hb, hcase⟩ := h4 i r hr
    rcases hcase with hre | ⟨hcan, -⟩
    · rw [hr, List.getElem?_map, hb, hre]
      rfl
    · rw [hnc] at hcan
      cases hcan
  · rw [List.getElem?_eq_none (by omega), List.getElem?_eq_none (by simp; omega)]

/-- Witness for C3 on a concrete two-future trace where the second future
finishes before the first: feed, feed, finish 1, finish 0, collect, collect.
The collected sequence still follows input order — the successful value
first, then the panic surfaced as the second future's error — and has
exactly two entries. -/
theorem await_results_in_input_order_witness :
    ([Await.AwRes.mk (some 3) none, Await.AwRes.mk none (some ['p'])] :
        List (Await.AwRes Nat)) =
      ([Await.Body.completes (some 3) none, Await.Body.panics ['p']] :
        List (Await.Body Nat)).map Await.runBody ∧
    ([Await.AwRes.mk (some 3) none, Await.AwRes.mk none (some ['p'])] :
        List (Await.AwRes Nat)).length = 2 := by
  have a0 : Await.AwReach (α := Nat)
      (Await.AwInit [Await.Body.completes (some 3) none, Await.Body.panics ['p']]) :=
    Await.AwReach.init _
  have a1 : Await.AwReach (α := Nat)
      ⟨[Await.Body.completes (some 3) none, Await.Body.panics ['p']], 1,
        [false], [], false⟩ :=
    a0.step (Await.AwStep.feed _ (by simp [Await.AwInit]))
  have a2 : Await.AwReach (α := Nat)
      ⟨[Await.Body.completes (some 3) none, Await.Body.panics ['p']], 2,
        [false, false], [], false⟩ :=
    a1.step (Await.AwStep.feed _ (by simp))
  have a3 : Await.AwReach (α := Nat)
      ⟨[Await.Body.completes (some 3) none, Await.Body.panics ['p']], 2,
        [false, true], [], false⟩ :=
    a2.step (Await.AwStep.finish _ 1 rfl)
  have a4 : Await.AwReach (α := Nat)
      ⟨[Await.Body.completes (some 3) none, Await.Body.panics ['p']], 2,
        [true, true], [], false⟩ :=
    a3.step (Await.AwStep.finish _ 0 rfl)
  have a5 : Await.AwReach (α := Nat)
      ⟨[Await.Body.completes (some 3) none, Await.Body.panics ['p']], 2,
        [true, true], [Await.AwRes.mk (some 3) none], false⟩ :=
    a4.step (Await.AwStep.collect_done _ (Await.Body.completes (some 3) none)
      (by simp) rfl rfl)
  have a6 : Await.AwReach (α := Nat)
      ⟨[Await.Body.completes (some 3) none, Await.Body.panics ['p']], 2,
        [true, true],
        [Await.AwRes.mk (some 3) none, Await.AwRes.mk none (some ['p'])], false⟩ :=
    a5.step (Await.AwStep.collect_done _ (Await.Body.panics ['p']) (by simp) rfl rfl)
  have h := await_results_in_input_order _ a6
  exact ⟨(h.2.2 rfl rfl).2 rfl, rfl⟩

/-- C1 counterexample: the original quiescence claim — after the per-id
processing loop quiesces the shared map contains no entry for that id — is
false because of the pre-gate error returns of `processEventsForMessageID`:
on the trace publish → load → receive → error return (a non-cancellation
failure of a replies await), a state is reached in which every goroutine
has returned yet the map still holds the entry for the id, and since later
publishes only swap and never spawn, the entry is never removed. -/
theorem coalescer_stale_entry_counterexample :
    Coalescer.Reach (α := Nat)
      ⟨[7], [⟨true, false⟩], some 0, [Coalescer.WSt.wdone], [], true⟩ ∧
    (∀ (i : Nat) (w : Coalescer.WSt Nat),
      ([Coalescer.WSt.wdone] : List (Coalescer.WSt Nat))[i]? = some w →
        w = Coalescer.WSt.wdone) ∧
    (some 0 : Option Nat) ≠ none := by
  refine ⟨?_, ?_, by simp⟩
  · have r1 : Coalescer.Reach (α := Nat)
        ⟨[7], [⟨false, false⟩], some 0, [Coalescer.WSt.atLoad], [], false⟩ :=
      Coalescer.Reach.init.step (Coalescer.CoStep.publish_fresh _ 7 rfl)
    have r2 : Coalescer.Reach (α := Nat)
        ⟨[7], [⟨false, false⟩], some 0, [Coalescer.WSt.atRecv 0], [], false⟩ :=
      r1.step (Coalescer.CoStep.load_some _ 0 0 rfl rfl)
    have r3 : Coalescer.Reach (α := Nat)
        ⟨[7], [⟨true, false⟩], some 0, [Coalescer.WSt.atCAS 0 7], [], false⟩ :=
      r2.step (Coalescer.CoStep.recv_ok _ 0 0 ⟨false, false⟩ 7 rfl rfl rfl rfl)
    exact r3.step (Coalescer.CoStep.err_return _ 0 0 7 rfl)
  · intro i w hi
    match i with
    | 0 =>
      simp at hi
      exact hi.symm
    | n + 1 => simp at hi

/-- C1 (amended): over the coalescer transition system for one fixed source
message id (publishers linearized at their successful sync.Map operation,
workers stepping through load, channel receive, the pre-gate error returns,
and the CompareAndDelete gate), in every reachable state (1) every gated
effect emission on record — each `(e, n)` in `commits`, recorded when a
worker passed the CompareAndDelete gate holding event `e` with `n` events
published — satisfies that `e` was the most recent published event at that
moment (`e = pubs[n-1]`), so only the most recent event of the interleaving
produces observable remote effects; and (2) in executions where no goroutine
took a pre-gate error return, once processing quiesces — every spawned
goroutine has returned — the shared map holds no entry for the id.  After a
pre-gate error return the map entry is stale (see the counterexample), so
the quiescence property holds only for failure-free executions. -/
theorem coalescer_latest_commit_and_quiescence {α : Type} (s : Coalescer.CoSt α)
    (h : Coalescer.Reach s) :
    (∀ p ∈ s.commits, 0 < p.2 ∧ p.2 ≤ s.pubs.length ∧ s.pubs[p.2 - 1]? = some p.1) ∧
    (s.failed = false →
      (∀ (i : Nat) (w : Coalescer.WSt α), s.workers[i]? = some w →
        w = Coalescer.WSt.wdone) → s.slot = none) := by
  obtain ⟨-, -, -, -, -, -, -, h8, h9, -, -⟩ := Coalescer.CoInv_reach s h
  refine ⟨h9, ?_⟩
  intro hff hall
  cases hslot : s.slot with
  | none => rfl
  | some k =>
    obtain ⟨i, w, hi, hbusy⟩ := h8 hff k hslot
    rw [hall i w hi] at hbusy
    simp [Coalescer.WSt.isBusy] at hbusy

/-- Witness for C1 on the concrete trace publish(7) → load → receive →
successful CompareAndDelete: the single commit pairs event 7 with publish
count 1 and indeed 7 is the then-latest published event, and with the lone
goroutine returned the slot is empty. -/
theorem coalescer_latest_commit_and_quiescence_witness :
    (0 : Nat) < 1 ∧ 1 ≤ ([7] : List Nat).length ∧ ([7] : List Nat)[1 - 1]? = some 7 ∧
    (none : Option Nat) = none := by
  have r1 : Coalescer.Reach (α := Nat)
      ⟨[7], [⟨false, false⟩], some 0, [Coalescer.WSt.atLoad], [], false⟩ :=
    Coalescer.Reach.init.step (Coalescer.CoStep.publish_fresh _ 7 rfl)
  have r2 : Coalescer.Reach (α := Nat)
      ⟨[7], [⟨false, false⟩], some 0, [Coalescer.WSt.atRecv 0], [], false⟩ :=
    r1.step (Coalescer.CoStep.load_some _ 0 0 rfl rfl)
  have r3 : Coalescer.Reach (α := Nat)
      ⟨[7], [⟨true, false⟩], some 0, [Coalescer.WSt.atCAS 0 7], [], false⟩ :=
    r2.step (Coalescer.CoStep.recv_ok _ 0 0 ⟨false, false⟩ 7 rfl rfl rfl rfl)
  have r4 : Coalescer.Reach (α := Nat)
      ⟨[7], [⟨true, false⟩], none, [Coalescer.WSt.wdone], [(7, 1)], false⟩ :=
    r3.step (Coalescer.CoStep.cas_ok _ 0 0 7 rfl rfl)
  have h := coalescer_latest_commit_and_quiescence _ r4
  have hc := h.1 (7, 1) (by simp)
  refine ⟨hc.1, hc.2.1, hc.2.2, h.2 rfl ?_⟩
  intro i w hi
  match i with
  | 0 =>
    simp at hi
    exact hi.symm
  | n + 1 => simp at hi

end CliBot
